import Mathlib

/-!
Verification of the citeproc-rs evaluation core against its specification.

The Rust sources are shallowly embedded: pure functions become Lean
functions over `List Char` / `Nat` (u32 values are `Nat`, with explicit
range checks where the Rust code checks them), fallible operations return
`Option` or `Except String` (a Rust panic is `Except.error` carrying the
panic message), and the nom parser combinators of `input/numeric.rs` are
reimplemented as total functions on `List Char` that mirror each
combinator's maximal-munch behaviour.
-/

namespace Citeproc

/-! ## Numeric locator parser (src/citeproc/src/input/numeric.rs) -/

/-- `NumericToken` from numeric.rs. `Affixed` keeps the recognized slice
(here, the list of characters). u32 is modelled as `Nat`. -/
inductive NumericToken : Type
  | Num (n : Nat)
  | Affixed (s : List Char)
  | Comma
  | Hyphen
  | Ampersand
deriving DecidableEq

/-- `NumericToken::get_num`. -/
def NumericToken.get_num : NumericToken → Option Nat
  | .Num u => some u
  | _ => none

/-- The ASCII decimal digits (the characters nom's `digit1` accepts). -/
def digitChars : List Char :=
  ['0', '1', '2', '3', '4', '5', '6', '7', '8', '9']

/-- The separator/space characters `" ,&-"` (the exclusion set of
`num_suf` and the characters at which every token scanner stops). -/
def sepSpaceChars : List Char := [' ', ',', '&', '-']

/-- The exclusion set `" ,&-01234567890"` of `num_pre` (verbatim,
duplicate `'0'` included). -/
def numPreExcl : List Char :=
  [' ', ',', '&', '-', '0', '1', '2', '3', '4', '5', '6', '7', '8', '9', '0']

/-- The ASCII digit character for one decimal digit. -/
def digitChar (d : Nat) : Char := Char.ofNat (48 + d)

/-- Big-endian decimal digits of a `Nat`, accumulator form. -/
def natDigitsAux (n : Nat) (acc : List Char) : List Char :=
  if n < 10 then digitChar n :: acc
  else natDigitsAux (n / 10) (digitChar (n % 10) :: acc)
termination_by n
decreasing_by exact Nat.div_lt_self (by omega) (by omega)

/-- Rust `format!("{}", i)` on a u32: decimal digits, no leading zeros. -/
def natDigits (n : Nat) : List Char := natDigitsAux n []

/-- The characters one token contributes in `tokens_to_string`:
`Num` in decimal, `Affixed` verbatim, and the separators as
ASCII comma-space / hyphen / space-ampersand-space. -/
def tokenChars : NumericToken → List Char
  | .Num i => natDigits i
  | .Affixed a => a
  | .Comma => [',', ' ']
  | .Hyphen => ['-']
  | .Ampersand => [' ', '&', ' ']

/-- `tokens_to_string` from numeric.rs: fold the rendered pieces into
one string (modelled as `List Char`). -/
def tokens_to_string (ts : List NumericToken) : List Char :=
  ts.foldl (fun s t => s ++ tokenChars t) []

/-- `NumericValue` from numeric.rs: a parsed token list or the raw
unparsed string. -/
inductive NumericValue : Type
  | Tokens (ts : List NumericToken)
  | Str (s : List Char)
deriving DecidableEq

/-- `NumericValue::num`. -/
def NumericValue.num (i : Nat) : NumericValue := .Tokens [.Num i]

/-- `NumericValue::first_num`. -/
def NumericValue.first_num : NumericValue → Option Nat
  | .Tokens ts => (ts.get? 0).bind NumericToken.get_num
  | .Str _ => none

/-- `NumericValue::page_first`. -/
def NumericValue.page_first (v : NumericValue) : Option NumericValue :=
  v.first_num.map NumericValue.num

/-- `NumericValue::is_numeric`. -/
def NumericValue.is_numeric : NumericValue → Bool
  | .Tokens _ => true
  | .Str _ => false

/-- `NumericValue::is_multiple`. -/
def NumericValue.is_multiple : NumericValue → Bool
  | .Tokens ts => ts.length > 1
  | .Str _ => false

/-- `NumericValue::to_string`. -/
def NumericValue.to_string : NumericValue → List Char
  | .Tokens ts => tokens_to_string ts
  | .Str s => s

/-! ### nom combinators, specialised to complete input (`CompleteStr`).

A parser is a function `List Char → Option (α × List Char)` returning the
parsed value and the unconsumed remainder; `none` is a parse error. -/

/-- Result type of a nom-style parser over complete input. -/
abbrev PRes (α : Type) := Option (α × List Char)

/-- Maximal-munch scanner: the longest nonempty run of characters
satisfying `q`, or failure when the run is empty. -/
def takeWhile1 (q : Char → Bool) (l : List Char) : PRes (List Char) :=
  let t := l.takeWhile q
  if t.isEmpty then none else some (t, l.dropWhile q)

/-- nom `digit1`: one or more ASCII digits (maximal munch). -/
def digit1 : List Char → PRes (List Char) :=
  takeWhile1 fun c => digitChars.contains c

/-- nom `is_not!(excl)`: the longest nonempty run of characters not in
`excl`. -/
def isNotP (excl : List Char) : List Char → PRes (List Char) :=
  takeWhile1 fun c => !excl.contains c

/-- nom `char!(c)`. -/
def pchar (c : Char) : List Char → PRes Char
  | [] => none
  | x :: xs => if x = c then some (c, xs) else none

/-- nom `one_of!(cs)`. -/
def oneOf (cs : List Char) : List Char → PRes Char
  | [] => none
  | x :: xs => if cs.contains x then some (x, xs) else none

/-- Fuel-driven worker for nom `many0!`. nom refuses to loop on a parser
that consumes nothing, which the `r.length < l.length` progress guard
models; the fuel is always at least `l.length + 1`, which the progress
guard makes sufficient. -/
def manyAux (p : List Char → PRes α) : Nat → List Char → (List α × List Char)
  | 0, l => ([], l)
  | fuel + 1, l =>
    match p l with
    | some (x, r) =>
      if r.length < l.length then
        let (xs, r2) := manyAux p fuel r
        (x :: xs, r2)
      else ([], l)
    | none => ([], l)

/-- nom `many0!` over complete input: never fails. -/
def many0 (p : List Char → PRes α) (l : List Char) : List α × List Char :=
  manyAux p (l.length + 1) l

/-- nom `many1!`: one application of `p`, then `many0`. -/
def many1 (p : List Char → PRes α) (l : List Char) : PRes (List α) :=
  match p l with
  | some (x, r) =>
    let (xs, r2) := many0 p r
    some (x :: xs, r2)
  | none => none

/-- Digit-string value, as read by Rust's `u32::from_str` on the digits
recognized by `digit1`. -/
def digitsVal (ds : List Char) : Nat :=
  ds.foldl (fun a c => 10 * a + (c.toNat - 48)) 0

/-- `from_digits` (`input.parse::<u32>()`): fails (`ParseIntError`:
overflow) when the value does not fit in a u32. -/
def from_digits (ds : List Char) : Option Nat :=
  let v := digitsVal ds
  if v < 4294967296 then some v else none

/-- `int`: `map_res!(digit1, from_digits)`. -/
def int (l : List Char) : PRes Nat :=
  match digit1 l with
  | some (ds, r) =>
    match from_digits ds with
    | some v => some (v, r)
    | none => none
  | none => none

/-- `num`: `map!(int, NumericToken::Num)`. -/
def num (l : List Char) : PRes NumericToken :=
  match int l with
  | some (v, r) => some (.Num v, r)
  | none => none

/-- `num_pre`: `is_not!(" ,&-01234567890")`. -/
def num_pre : List Char → PRes (List Char) := isNotP numPreExcl

/-- `num_suf`: `is_not!(" ,&-")`. -/
def num_suf : List Char → PRes (List Char) := isNotP sepSpaceChars

/-- `prefix1`: `recognize!(tuple!(many1!(num_pre), digit1, many0!(num_suf)))`
mapped through `to_affixed`. `recognize!` yields the consumed slice, which
is exactly the concatenation of the parts consumed by the tuple. -/
def prefix1 (l : List Char) : PRes NumericToken :=
  match many1 num_pre l with
  | none => none
  | some (pres, r1) =>
    match digit1 r1 with
    | none => none
    | some (ds, r2) =>
      let (sufs, r3) := many0 num_suf r2
      some (.Affixed (pres.flatten ++ ds ++ sufs.flatten), r3)

/-- `suffix1`: `recognize!(tuple!(many0!(num_pre), digit1, many1!(num_suf)))`
mapped through `to_affixed`. -/
def suffix1 (l : List Char) : PRes NumericToken :=
  let (pres, r1) := many0 num_pre l
  match digit1 r1 with
  | none => none
  | some (ds, r2) =>
    match many1 num_suf r2 with
    | none => none
    | some (sufs, r3) => some (.Affixed (pres.flatten ++ ds ++ sufs.flatten), r3)

/-- `num_ish`: `alt!(prefix1 | suffix1 | num)`. -/
def num_ish (l : List Char) : PRes NumericToken :=
  match prefix1 l with
  | some res => some res
  | none =>
    match suffix1 l with
    | some res => some res
    | none => num l

/-- `sep_from`: which separator token a separator character denotes. -/
def sep_from : Char → Option NumericToken
  | ',' => some .Comma
  | '-' => some .Hyphen
  | '&' => some .Ampersand
  | _ => none

/-- `sep`: `map_res!(delimited!(many0!(char!(' ')), one_of!(",&-"),
many0!(char!(' '))), sep_from)`. -/
def sep (l : List Char) : PRes NumericToken :=
  let (_, r1) := many0 (pchar ' ') l
  match oneOf [',', '&', '-'] r1 with
  | none => none
  | some (c, r2) =>
    let (_, r3) := many0 (pchar ' ') r2
    match sep_from c with
    | some t => some (t, r3)
    | none => none

/-- The `tuple!(sep, num_ish)` pair inside `num_tokens`. -/
def sepNumPair (l : List Char) : PRes (NumericToken × NumericToken) :=
  match sep l with
  | none => none
  | some (s, r1) =>
    match num_ish r1 with
    | none => none
    | some (n, r2) => some ((s, n), r2)

/-- `num_tokens`: `num_ish` then `many0!(tuple!(sep, num_ish))`, flattened
exactly as the Rust fold does (`acc.push(p.0); acc.push(p.1)`). -/
def num_tokens (l : List Char) : PRes (List NumericToken) :=
  match num_ish l with
  | none => none
  | some (n, r1) =>
    let (rest, r2) := many0 sepNumPair r1
    some (rest.foldl (fun acc p => acc ++ [p.1, p.2]) [n], r2)

/-- `impl From<&str> for NumericValue`: a full parse yields `Tokens`, any
remainder or parse failure falls back to `Str` on the original input. -/
def numericValueFrom (input : List Char) : NumericValue :=
  match num_tokens input with
  | some (parsed, remainder) =>
    if remainder.isEmpty then .Tokens parsed else .Str input
  | none => .Str input

/-- Whether the token grammar `num_ish (sep num_ish)*` consumes the whole
input. -/
def fullParse (l : List Char) : Bool :=
  match num_tokens l with
  | some (_, r) => r.isEmpty
  | none => false

/-! ### Auxiliary notions for the round-trip proof -/

/-- Whether a remainder begins at a point every token scanner stops at:
end of input or a separator/space character. -/
def sepStop : List Char → Bool
  | [] => true
  | c :: _ => sepSpaceChars.contains c

/-- Whether a list does not begin with a space (so the trailing space run
of a separator cannot eat into it). -/
def notSpaceHead : List Char → Bool
  | [] => true
  | c :: _ => c != ' '

/-- A well-formed non-separator token as produced by a successful parse:
a `Num` fits in a u32; an `Affixed` slice is nonempty, free of
separator/space characters, and re-parses to itself. -/
def goodNumish : NumericToken → Bool
  | .Num n => decide (n < 4294967296)
  | .Affixed a =>
    !a.isEmpty && a.all (fun c => !sepSpaceChars.contains c) &&
      decide (num_ish a = some (.Affixed a, []))
  | _ => false

/-- Whether a token is a separator. -/
def isSepTok : NumericToken → Bool
  | .Comma => true
  | .Hyphen => true
  | .Ampersand => true
  | _ => false

/-- Alternation invariant for the tail of a token list: separator /
non-separator pairs. -/
def goodPairsToks : List NumericToken → Bool
  | [] => true
  | s :: t :: more => isSepTok s && goodNumish t && goodPairsToks more
  | [_] => false

/-- Alternation invariant for a parsed token list: a non-separator token
followed by separator / non-separator pairs. -/
def goodToks : List NumericToken → Bool
  | [] => false
  | t :: rest => goodNumish t && goodPairsToks rest

/-- The (separator, token) pairs underlying an alternating tail. -/
def pairsOf : List NumericToken → List (NumericToken × NumericToken)
  | [] => []
  | s :: t :: more => (s, t) :: pairsOf more
  | [_] => []

/-- Flatten (separator, token) pairs back into a token list. -/
def flattenPairs : List (NumericToken × NumericToken) → List NumericToken
  | [] => []
  | (s, t) :: more => s :: t :: flattenPairs more

/-- A parser consumes input on success. -/
def PConsume {α : Type} (p : List Char → PRes α) : Prop :=
  ∀ l x r, p l = some (x, r) → r.length < l.length

/-- A parser's behaviour is unchanged by appending input beyond a
separator/space boundary: it parses the same value and carries the
appended part in its remainder. -/
def PExt {α : Type} (p : List Char → PRes α) : Prop :=
  ∀ s rest, sepStop rest = true →
    p (s ++ rest) =
      (match p s with
       | some (x, r) => some (x, r ++ rest)
       | none => none)

/-- A parser's consumed part on success is an exact prefix: the input is
the consumed characters followed by the remainder (stated for scanners
returning their consumed slice). -/
def PSplit (p : List Char → PRes (List Char)) : Prop :=
  ∀ l x r, p l = some (x, r) → l = x ++ r

/-! ## Cite / cluster data model (src/crates/citeproc-io/src/cite.rs) -/

/-- `IntraNote` from cite.rs: a footnote number, optionally with a
discriminant for multi-cluster footnotes. -/
inductive IntraNote : Type
  | Single (n : Nat)
  | Multi (n : Nat) (d : Nat)
deriving DecidableEq

/-- `IntraNote::note_number`. -/
def IntraNote.note_number : IntraNote → Nat
  | .Single x => x
  | .Multi x _ => x

/-- `impl PartialOrd for IntraNote`, arm by arm; `u32::partial_cmp` is
total, modelled by `compare` on `Nat`. -/
def cmpIntraNote : IntraNote → IntraNote → Option Ordering
  | .Single _, .Multi _ _ => some .lt
  | .Multi _ _, .Single _ => some .gt
  | .Single a, .Single b => some (compare a b)
  | .Multi a b, .Multi c d =>
    (some (compare a c)).bind fun e =>
      if e = .eq then some (compare b d) else some e

/-- `ClusterNumber` from cite.rs. -/
inductive ClusterNumber : Type
  | InText (n : Nat)
  | Note (i : IntraNote)
deriving DecidableEq

/-- `impl PartialOrd for ClusterNumber`, arm by arm. -/
def cmpClusterNumber : ClusterNumber → ClusterNumber → Option Ordering
  | .InText _, .Note _ => some .lt
  | .Note _, .InText _ => some .gt
  | .InText a, .InText b => some (compare a b)
  | .Note a, .Note b => cmpIntraNote a b

/-- Rust `u32` subtraction `a - b` as it behaves in a checked build: the
difference when it does not underflow, otherwise the overflow panic. -/
def checkedSubU32 (a b : Nat) : Except String Nat :=
  if b ≤ a then .ok (a - b) else .error "attempt to subtract with overflow"

/-- `ClusterNumber::sub_note`: every (self-note, note) pattern pair maps
to `Some(a - b)` on the two note numbers; an `InText` receiver yields
`None`. The `Except` layer carries the possible subtraction panic. -/
def sub_note : ClusterNumber → IntraNote → Except String (Option Nat)
  | .Note self_note, note =>
    match self_note, note with
    | .Single a, .Single b => (checkedSubU32 a b).map some
    | .Single a, .Multi b _ => (checkedSubU32 a b).map some
    | .Multi a _, .Single b => (checkedSubU32 a b).map some
    | .Multi a _, .Multi b _ => (checkedSubU32 a b).map some
  | .InText _, _ => .ok none

/-- The `Element::Macro` arm of `Proc::intermediate`
(src/citeproc/src/proc/mod.rs): look the macro body up by name and
evaluate it as a delimiter-less sequence; a missing name hits
`.expect("macro errors unimplemented!")`, a runtime panic, modelled as
`Except.error` with the panic message. The macro bodies and the sequence
evaluator are abstract parameters (`α`, `evalSeq`). -/
def evalMacroArm {α β : Type} (macros : List (String × α)) (name : String)
    (evalSeq : α → β) : Except String β :=
  match macros.lookup name with
  | some macroBody => .ok (evalSeq macroBody)
  | none => .error "macro errors unimplemented!"

/-! ## Variables, references, cites, contexts
(src/crates/citeproc-proc/src/cite_context.rs; the `csl` variable enums and
the `Reference` record are not under src/, so they are modelled from the
spec: a reference is a bag of typed values keyed by variable, partitioned
into ordinary / number / name / date kinds, with the variables named by
the code present as constructors and the rest abstracted by an index.) -/

/-- Ordinary (string) variables: the two the code distinguishes, plus the
rest. -/
inductive Variable : Type
  | Title
  | TitleShort
  | OtherOrdinary (k : Nat)
deriving DecidableEq

/-- Number variables: the four synthesized ones plus `Page` (used by
`PageFirst`), plus the rest. -/
inductive NumberVariable : Type
  | Locator
  | Page
  | PageFirst
  | FirstReferenceNoteNumber
  | CitationNumber
  | OtherNumber (k : Nat)
deriving DecidableEq

/-- Name variables: `Dummy` (special-cased by the code) plus the rest. -/
inductive NameVariable : Type
  | Dummy
  | OtherName (k : Nat)
deriving DecidableEq

/-- Date variables, abstracted by an index. -/
inductive DateVariable : Type
  | OtherDate (k : Nat)
deriving DecidableEq

/-- `AnyVariable`: the four disjoint variable kinds. -/
inductive AnyVariable : Type
  | Ordinary (v : Variable)
  | Number (v : NumberVariable)
  | Name (v : NameVariable)
  | Date (v : DateVariable)
deriving DecidableEq

/-- A calendar date as used by the date-shape predicates: month 0 / day 0
encode absence. -/
structure CslDate : Type where
  year : Int
  month : Nat
  day : Nat
deriving DecidableEq

/-- `DateOrRange` (citeproc-io): single date, range, or literal text. -/
inductive DateOrRange : Type
  | Single (d : CslDate)
  | Range (d1 d2 : CslDate)
  | Literal (s : List Char)
deriving DecidableEq

/-- `Reference`, modelled from the spec: four maps from variables to
values (a map is a function to `Option`), plus the CSL type (abstracted
to an index). -/
structure Reference : Type where
  ordinary : Variable → Option (List Char)
  number : NumberVariable → Option NumericValue
  name : NameVariable → Option (List Nat)
  date : DateVariable → Option DateOrRange
  csl_type : Nat

/-- `Locator` from cite.rs: a locator type tag (abstracted) and a
`NumericValue`. -/
structure Locator : Type where
  locType : Nat
  locValue : NumericValue
deriving DecidableEq

/-- `Locator::value`. -/
def Locator.value (l : Locator) : NumericValue := l.locValue

/-- `Suppression` from cite.rs. -/
inductive Suppression : Type
  | InText
  | Rest
deriving DecidableEq

/-- `Cite` from cite.rs (output-format fields abstracted to text). -/
structure Cite : Type where
  id : Nat
  ref_id : String
  pre : Option (List Char)
  suf : Option (List Char)
  suppression : Option Suppression
  locators : List Locator
deriving DecidableEq

/-- The disambiguation passes (citeproc-proc; modelled from the spec's
pass list: add names, add year suffix, conditionals). -/
inductive DisambPass : Type
  | AddNames
  | AddYearSuffix
  | Conditionals
deriving DecidableEq

/-- `CiteContext` (cite_context.rs), restricted to the fields the
embedded functions read. `position` is the pair (position, optional
first-reference-note-number); the position itself is abstracted to an
index. -/
structure CiteContext : Type where
  reference : Reference
  cite : Cite
  position : Nat × Option Nat
  disamb_pass : Option DisambPass
  citation_number : Nat
  bib_number : Option Nat

/-- `VariableForm` (csl): long or short form of an ordinary variable. -/
inductive VariableForm : Type
  | Long
  | Short
deriving DecidableEq

/-- `CiteContext::get_ordinary`. -/
def get_ordinary (ctx : CiteContext) (var : Variable) (form : VariableForm) :
    Option (List Char) :=
  match var, form with
  | .Title, .Short => ctx.reference.ordinary .TitleShort
  | _, _ => ctx.reference.ordinary var

/-- `ref_has_variable` (cite_context.rs, private helper): key presence in
the reference's map for the variable's kind. -/
def ref_has_variable (refr : Reference) (var : AnyVariable) : Bool :=
  match var with
  | .Ordinary v => (refr.ordinary v).isSome
  | .Number v => (refr.number v).isSome
  | .Name v => (refr.name v).isSome
  | .Date v => (refr.date v).isSome

/-- `CiteContext::get_number`. -/
def get_number (ctx : CiteContext) (var : NumberVariable) : Option NumericValue :=
  match var with
  | .Locator => (ctx.cite.locators.get? 0).map Locator.value
  | .FirstReferenceNoteNumber => ctx.position.2.map NumericValue.num
  | .CitationNumber => ctx.bib_number.map NumericValue.num
  | .PageFirst => (ctx.reference.number .Page).bind NumericValue.page_first
  | _ => ctx.reference.number var

/-- `CiteContext::is_numeric`. -/
def is_numeric (ctx : CiteContext) (var : AnyVariable) : Bool :=
  match var with
  | .Number n => ((get_number ctx n).map NumericValue.is_numeric).getD false
  | _ => false

/-- `CiteContext::has_variable`, arm by arm. -/
def has_variable (ctx : CiteContext) (var : AnyVariable) : Bool :=
  match var with
  | .Name .Dummy => false
  | .Number .Locator => !ctx.cite.locators.isEmpty
  | .Number .PageFirst => is_numeric ctx (.Number .Page)
  | .Number .FirstReferenceNoteNumber => ctx.position.2.isSome
  | .Number .CitationNumber => ctx.bib_number.isSome
  | _ => ref_has_variable ctx.reference var

/-- `CiteContext::get_name`. -/
def get_name (ctx : CiteContext) (var : NameVariable) : Option (List Nat) :=
  match var with
  | .Dummy => none
  | _ => ctx.reference.name var

/-! ## Conditionals (src/crates/citeproc-proc/src/choose.rs) -/

/-- `Match` (csl::style): the four condition-set match policies. -/
inductive Match : Type
  | All
  | Any
  | None
  | Nand
deriving DecidableEq

/-- `Cond` (csl::style): the predicates `eval_condset` reads, plus a
constructor for every predicate kind its final `_ => return None` arm
swallows. `RefType` is `Cond::Type`. -/
inductive Cond : Type
  | Variable (v : AnyVariable)
  | IsNumeric (v : AnyVariable)
  | Disambiguate (d : Bool)
  | RefType (t : Nat)
  | Position (p : Nat)
  | HasYearOnly (dv : DateVariable)
  | HasMonthOrSeason (dv : DateVariable)
  | HasDay (dv : DateVariable)
  | OtherCond (k : Nat)
deriving DecidableEq

/-- `CondSet` (csl::style): one match policy over a set of predicates. -/
structure CondSet : Type where
  match_type : Match
  conds : List Cond
deriving DecidableEq

/-- `Conditions` (csl::style): one match policy over several condition
sets. -/
structure Conditions : Type where
  match_type : Match
  conditions : List CondSet
deriving DecidableEq

/-- Style feature flags (only the one read by `eval_condset`). -/
structure Features : Type where
  condition_date_parts : Bool

/-- The style data `eval_condset` reads from the database. -/
structure StyleModel : Type where
  features : Features

/-- The database capabilities choose.rs uses: the style, the position
computed per cite id, and `Position::matches` (csl code, abstracted). -/
structure Db : Type where
  style : StyleModel
  cite_position : Nat → Nat × Option Nat
  posMatches : Nat → Nat → Bool

/-- The per-predicate evaluator inside `eval_condset`'s `filter_map`:
`none` means the predicate is excluded ("no opinion"), not false. The
three date-shape predicates are excluded whenever the style's
`condition_date_parts` feature is off, and unknown predicates are always
excluded (the source's final `_ => return None`). -/
def condEval (ctx : CiteContext) (db : Db) (cond : Cond) : Option Bool :=
  match cond with
  | .Variable var => some (has_variable ctx var)
  | .IsNumeric var => some (is_numeric ctx var)
  | .Disambiguate d => some (d == (ctx.disamb_pass == some .Conditionals))
  | .RefType typ => some (ctx.reference.csl_type == typ)
  | .Position pos => some (db.posMatches (db.cite_position ctx.cite.id).1 pos)
  | .HasYearOnly dvar =>
    if !db.style.features.condition_date_parts then none
    else some (((ctx.reference.date dvar).map fun dor =>
      match dor with
      | .Single d => d.month == 0 && d.day == 0
      | .Range d1 d2 => d1.month == 0 && d1.day == 0 && d2.month == 0 && d2.day == 0
      | _ => false).getD false)
  | .HasMonthOrSeason dvar =>
    if !db.style.features.condition_date_parts then none
    else some (((ctx.reference.date dvar).map fun dor =>
      match dor with
      | .Single d => d.month != 0
      | .Range d1 d2 => d1.month != 0 || d2.month != 0
      | _ => false).getD false)
  | .HasDay dvar =>
    if !db.style.features.condition_date_parts then none
    else some (((ctx.reference.date dvar).map fun dor =>
      match dor with
      | .Single d => d.day != 0
      | .Range d1 d2 => d1.day != 0 || d2.day != 0
      | _ => false).getD false)
  | .OtherCond _ => none

/-- `run_matcher`, arm by arm (the iterator is a list of the effective
predicate booleans). -/
def run_matcher (bools : List Bool) (match_type : Match) : Bool :=
  match match_type with
  | .Any => bools.any fun b => b
  | .Nand => bools.any fun b => !b
  | .All => bools.all fun b => b
  | .None => bools.all fun b => !b

/-- `eval_condset`: filter-map the predicates and run the matcher. -/
def eval_condset (cond_set : CondSet) (ctx : CiteContext) (db : Db) : Bool :=
  run_matcher (cond_set.conds.filterMap (condEval ctx db)) cond_set.match_type

/-- `eval_conditions`: the match result across condition sets, and the
disambiguate flag — any set mentions `Disambiguate(true)` or
`Disambiguate(false)` and the current pass is not `Conditionals`. -/
def eval_conditions (conditions : Conditions) (ctx : CiteContext) (db : Db) :
    Bool × Bool :=
  let tests := conditions.conditions.map fun c => eval_condset c ctx db
  let disambiguate :=
    (conditions.conditions.any fun c =>
      c.conds.contains (Cond.Disambiguate true) ||
        c.conds.contains (Cond.Disambiguate false)) &&
      !(ctx.disamb_pass == some DisambPass.Conditionals)
  (run_matcher tests conditions.match_type, disambiguate)

/-- `IfThen` (csl::style): a condition block and its body; the element
type is an abstract parameter. -/
structure IfThen (E : Type) : Type where
  conditions : Conditions
  elements : List E

/-- `Else` (csl::style). -/
structure Else (E : Type) : Type where
  elements : List E

/-- `Choose` (csl::style): the `<if>` head, the `<else-if>` list, the
`<else>` tail. -/
structure Choose (E : Type) : Type where
  head : IfThen E
  rest : List (IfThen E)
  last : Else E

/-- `BranchEval` from choose.rs. -/
structure BranchEval (C G : Type) : Type where
  disambiguate : Bool
  content : Option (C × G)

/-- `eval_ifthen`: evaluate the branch's conditions, and its body (via
the abstract sequence evaluator `evalSeq`, standing for
`helpers::sequence`, which is not under src/) only when they matched. -/
def eval_ifthen {E C G : Type} (evalSeq : List E → C × G) (branch : IfThen E)
    (ctx : CiteContext) (db : Db) : BranchEval C G :=
  let mg := eval_conditions branch.conditions ctx db
  let content := if mg.1 then some (evalSeq branch.elements) else none
  ⟨mg.2, content⟩

/-- The two shapes `Choose::intermediate` returns: the branch content as
is, or wrapped in `IR::ConditionalDisamb` remembering the `Choose`. -/
inductive IrChoose (E C : Type) : Type
  | plain (c : C)
  | condDisamb (ch : Choose E) (c : C)

/-- The `for branch in rest` loop of `Choose::intermediate`: stop once a
branch has matched, accumulating the disambiguate flag of every branch
evaluated. -/
def chooseLoop {E C G : Type} (evalSeq : List E → C × G) (ctx : CiteContext)
    (db : Db) :
    List (IfThen E) → Option (C × G) → Bool → Option (C × G) × Bool
  | [], found, disamb => (found, disamb)
  | branch :: more, found, disamb =>
    match found with
    | some c => (some c, disamb)
    | none =>
      let be := eval_ifthen evalSeq branch ctx db
      chooseLoop evalSeq ctx db more be.content (disamb || be.disambiguate)

/-- `impl Proc for Arc<Choose>`, `intermediate`: check `<if>`, then the
`<else-if>` list in order, then `<else>`; wrap in `ConditionalDisamb`
when the accumulated disambiguate flag is set. -/
def chooseIntermediate {E C G : Type} (evalSeq : List E → C × G)
    (self : Choose E) (ctx : CiteContext) (db : Db) : IrChoose E C × G :=
  let hd := eval_ifthen evalSeq self.head ctx db
  let disamb := false || hd.disambiguate
  match hd.content with
  | some (content, gv) =>
    if disamb then (.condDisamb self content, gv) else (.plain content, gv)
  | none =>
    let fd := chooseLoop evalSeq ctx db self.rest none disamb
    match fd.1 with
    | some (content, gv) =>
      if fd.2 then (.condDisamb self content, gv) else (.plain content, gv)
    | none =>
      let cg := evalSeq self.last.elements
      if fd.2 then (.condDisamb self cg.1, cg.2) else (.plain cg.1, cg.2)

/-- The content carried by a `Choose` result, wrapped or not. -/
def contentOf {E C : Type} : IrChoose E C → C
  | .plain c => c
  | .condDisamb _ c => c

/-- Whether a `Choose` result is wrapped in `ConditionalDisamb`. -/
def isCondDisamb {E C : Type} : IrChoose E C → Bool
  | .plain _ => false
  | .condDisamb _ _ => true

/-- Whether a branch's condition set matches in a context. -/
def branchMatches {E : Type} (ctx : CiteContext) (db : Db) (b : IfThen E) : Bool :=
  (eval_conditions b.conditions ctx db).1

/-- Whether a branch's conditions mention a `disambiguate` test. -/
def hasDisambTest {E : Type} (b : IfThen E) : Bool :=
  b.conditions.conditions.any fun c =>
    c.conds.contains (Cond.Disambiguate true) ||
      c.conds.contains (Cond.Disambiguate false)

/-- The prefix of the `<else-if>` list the loop evaluates: everything up
to and including the first matching branch (all of it when none
matches). -/
def takeThroughFirstMatch {E : Type} (ctx : CiteContext) (db : Db) :
    List (IfThen E) → List (IfThen E)
  | [] => []
  | b :: bs =>
    if branchMatches ctx db b then [b]
    else b :: takeThroughFirstMatch ctx db bs

/-- All branches `Choose::intermediate` evaluates: just the head when it
matches, otherwise the head plus the evaluated `<else-if>` prefix. -/
def evaluatedBranches {E : Type} (self : Choose E) (ctx : CiteContext)
    (db : Db) : List (IfThen E) :=
  if branchMatches ctx db self.head then [self.head]
  else self.head :: takeThroughFirstMatch ctx db self.rest

/-! ## Incremental query store (src/crates/citeproc/src/db/mod.rs).

Modelled from the spec: the salsa memoization engine and db/update.rs are
not under src/ (only `Processor::salsa_event`, `compute` and
`batched_updates` are). Spec §4.5/§9 specify the store as an explicit
dependency graph: each derived query keeps its cached value together with
the generation it was verified at; a global generation counter increments
per input write; a query is stale when a recorded dependency carries a
newer generation. `salsa_event` (in src) records one
`DocUpdate::Cluster(id)` per `built_cluster` WillExecute when
`save_updates` is set, and `batched_updates` computes, summarizes the
queue and clears it. Cluster outputs depend on the references their cites
name; reference payloads are abstracted to `Nat`. -/

/-- `DocUpdate` (db/update.rs, modelled from the spec: one recorded
re-execution event per affected cluster). -/
inductive DocUpdate : Type
  | Cluster (id : Nat)
deriving DecidableEq

/-- Point update of a function-backed map. -/
def updateFn {α β : Type} [DecidableEq α] (f : α → β) (k : α) (v : β) :
    α → β :=
  fun x => if x = k then v else f x

/-- Modelled from the spec: the incremental store's state — reference
inputs with their write generations, the cluster list with each cluster's
cite dependencies (the reference ids its cites name), the per-cluster
cached output with its verification generation, and the update queue that
`salsa_event` appends to. -/
structure Store : Type where
  curGen : Nat
  refVal : String → Option Nat
  refGen : String → Nat
  clusterIds : List Nat
  clusterCites : Nat → List String
  cached : Nat → Option (List (Option Nat) × Nat)
  queue : List DocUpdate
  save_updates : Bool

/-- Modelled from the spec: the derived `built_cluster` computation, a
pure function of the cluster's cite dependencies and the reference
inputs. -/
def built_cluster (s : Store) (cid : Nat) : List (Option Nat) :=
  (s.clusterCites cid).map s.refVal

/-- Modelled from the spec: a cluster's cached output is stale when
absent or when some dependency was written after it was computed. -/
def staleCluster (s : Store) (cid : Nat) : Bool :=
  match s.cached cid with
  | none => true
  | some (_, g) => (s.clusterCites cid).any fun r => g < s.refGen r

/-- Modelled from the spec: demanding one cluster recomputes only when
stale, recording the re-execution in the queue exactly when
`save_updates` is set (mirroring `Processor::salsa_event`, which returns
early when `!self.save_updates` and otherwise pushes
`DocUpdate::Cluster(key)` on `WillExecute` of `built_cluster`). -/
def computeOne (s : Store) (cid : Nat) : Store :=
  if staleCluster s cid then
    { s with
      cached := updateFn s.cached cid (some (built_cluster s cid, s.curGen)),
      queue := s.queue ++ if s.save_updates then [DocUpdate.Cluster cid] else [] }
  else s

/-- `Processor::compute` (non-parallel path): demand `built_cluster` for
every cluster id in order. -/
def compute (s : Store) : Store := s.clusterIds.foldl computeOne s

/-- `Processor::insert_reference` / `set_references` on one reference:
a new input value under the same key at a fresh generation. -/
def insert_reference (s : Store) (r : String) (v : Nat) : Store :=
  { s with
    curGen := s.curGen + 1,
    refVal := updateFn s.refVal r (some v),
    refGen := updateFn s.refGen r (s.curGen + 1) }

/-- `Processor::batched_updates`: nothing when `save_updates` is off;
otherwise compute, summarize the queue and clear it (the summary is
modelled as the raw event list; update.rs is not under src/). -/
def batched_updates (s : Store) : List DocUpdate × Store :=
  if !s.save_updates then ([], s)
  else
    let s2 := compute s
    (s2.queue, { s2 with queue := [] })

/-! ## Concrete sample instances used by witnesses -/

/-- A reference with no variables at all. -/
def emptyReference : Reference :=
  { ordinary := fun _ => none
    number := fun _ => none
    name := fun _ => none
    date := fun _ => none
    csl_type := 0 }

/-- A reference whose only content is the `Dummy` name variable. -/
def refDummyName : Reference :=
  { ordinary := fun _ => none
    number := fun _ => none
    name := fun v => if v = .Dummy then some [7] else none
    date := fun _ => none
    csl_type := 0 }

/-- A cite with no locators. -/
def citeNoLocators : Cite :=
  { id := 1, ref_id := "r", pre := none, suf := none,
    suppression := none, locators := [] }

/-- A context over `refDummyName` with no cite-level data. -/
def ctxDummy : CiteContext :=
  { reference := refDummyName, cite := citeNoLocators, position := (0, none),
    disamb_pass := none, citation_number := 1, bib_number := none }

/-- A context over the empty reference. -/
def sampleCtx : CiteContext :=
  { reference := emptyReference, cite := citeNoLocators, position := (0, none),
    disamb_pass := none, citation_number := 1, bib_number := none }

/-- A database whose style disables the date-part conditions feature. -/
def sampleDbNoDateParts : Db :=
  { style := { features := { condition_date_parts := false } }
    cite_position := fun _ => (0, none)
    posMatches := fun _ _ => false }

/-- A fully-computed two-cluster store: cluster 1 cites reference "a",
cluster 2 cites reference "b"; both outputs cached at generation 1. -/
def storeW : Store :=
  { curGen := 1
    refVal := fun x => if x = "a" then some 10 else if x = "b" then some 20 else none
    refGen := fun x => if x = "a" then 1 else if x = "b" then 1 else 0
    clusterIds := [1, 2]
    clusterCites := fun c => if c = 1 then ["a"] else if c = 2 then ["b"] else []
    cached := fun c =>
      if c = 1 then some ([some 10], 1)
      else if c = 2 then some ([some 20], 1)
      else none
    queue := []
    save_updates := true }

/-! ## Sanity checks: the doc-comment examples of numeric.rs -/

example : numericValueFrom "2, 4".toList =
    .Tokens [.Num 2, .Comma, .Num 4] := by decide
example : numericValueFrom "2 -4 , 5".toList =
    .Tokens [.Num 2, .Hyphen, .Num 4, .Comma, .Num 5] := by decide
example : numericValueFrom "2nd".toList = .Tokens [.Affixed "2nd".toList] := by decide
example : numericValueFrom "L2tp".toList = .Tokens [.Affixed "L2tp".toList] := by decide
example : numericValueFrom "2nd-4th".toList =
    .Tokens [.Affixed "2nd".toList, .Hyphen, .Affixed "4th".toList] := by decide
example : numericValueFrom "2nd edition".toList = .Str "2nd edition".toList := by decide
example : numericValueFrom "-5".toList = .Str "-5".toList := by decide
example : numericValueFrom "5,,7".toList = .Str "5,,7".toList := by decide
example : numericValueFrom "5 7 9 11".toList = .Str "5 7 9 11".toList := by decide
example : numericValueFrom "5,".toList = .Str "5,".toList := by decide
example : (numericValueFrom "2-5, 9".toList).page_first =
    some (.Tokens [.Num 2]) := by decide

/-! ## Proofs: numeric parse shape (C2) -/

theorem foldl_pairs_ne_nil (rest : List (NumericToken × NumericToken))
    (init : List NumericToken) (h : init ≠ []) :
    rest.foldl (fun acc p => acc ++ [p.1, p.2]) init ≠ [] := by
  induction rest generalizing init with
  | nil => exact h
  | cons p ps ih => exact ih _ (by simp)

theorem num_tokens_ne_nil {l : List Char} {ts : List NumericToken}
    {r : List Char} (h : num_tokens l = some (ts, r)) : ts ≠ [] := by
  unfold num_tokens at h
  cases h1 : num_ish l with
  | none => rw [h1] at h; exact absurd h (by simp)
  | some nr =>
    obtain ⟨n, r1⟩ := nr
    rw [h1] at h
    simp only [Option.some.injEq, Prod.mk.injEq] at h
    obtain ⟨hts, -⟩ := h
    rw [← hts]
    exact foldl_pairs_ne_nil _ _ (by simp)

/-- C2: `NumericValue::from` yields `Tokens ts` exactly when the token
grammar consumes the whole input; then `ts` is nonempty and the value is
numeric; any remainder or failure falls back to `Str` on the unchanged
input, which is not numeric. -/
theorem numeric_from_full_parse (s : List Char) :
    (∀ ts, numericValueFrom s = .Tokens ts ↔ num_tokens s = some (ts, [])) ∧
    (∀ ts, numericValueFrom s = .Tokens ts →
      ts ≠ [] ∧ (NumericValue.Tokens ts).is_numeric = true) ∧
    (fullParse s = false →
      numericValueFrom s = .Str s ∧ (NumericValue.Str s).is_numeric = false) := by
  refine ⟨?_, ?_, ?_⟩
  · intro ts
    unfold numericValueFrom
    cases h : num_tokens s with
    | none => simp
    | some pr =>
      obtain ⟨parsed, rem⟩ := pr
      cases rem with
      | nil => simp
      | cons c cs => simp
  · intro ts h
    have h2 : num_tokens s = some (ts, []) := by
      unfold numericValueFrom at h
      cases h3 : num_tokens s with
      | none => rw [h3] at h; exact absurd h (by simp)
      | some pr =>
        obtain ⟨parsed, rem⟩ := pr
        rw [h3] at h
        cases rem with
        | nil => simpa using h
        | cons c cs => exact absurd h (by simp)
    exact ⟨num_tokens_ne_nil h2, rfl⟩
  · intro h
    unfold fullParse at h
    unfold numericValueFrom
    cases h3 : num_tokens s with
    | none => exact ⟨rfl, rfl⟩
    | some pr =>
      obtain ⟨parsed, rem⟩ := pr
      rw [h3] at h
      have h4 : rem.isEmpty = false := h
      simp [h4, NumericValue.is_numeric]

/-- Witness for C2 at concrete inputs: "2nd" parses fully, "5," does not. -/
theorem numeric_from_full_parse_witness :
    ([NumericToken.Affixed "2nd".toList] ≠ [] ∧
      (NumericValue.Tokens [.Affixed "2nd".toList]).is_numeric = true) ∧
    (numericValueFrom "5,".toList = .Str "5,".toList ∧
      (NumericValue.Str "5,".toList).is_numeric = false) :=
  ⟨(numeric_from_full_parse "2nd".toList).2.1 [.Affixed "2nd".toList] (by decide),
    (numeric_from_full_parse "5,".toList).2.2 (by decide)⟩

/-! ## Proofs: ordering (C9, C10) -/

/-- C9: cluster-number ordering. `Note(Single a) < Note(Single b)` iff
`a < b`; `Note(Single n) < Note(Multi n d)`; `Multi` compares first by
note number and then by discriminant, so `Note(Multi n 1) < Note(Multi
n 2)`; and every `InText` position compares below every `Note`
position. -/
theorem cluster_number_order :
    (∀ a b : Nat,
      cmpClusterNumber (.Note (.Single a)) (.Note (.Single b)) = some .lt ↔ a < b) ∧
    (∀ n d : Nat,
      cmpClusterNumber (.Note (.Single n)) (.Note (.Multi n d)) = some .lt) ∧
    (∀ a b c d : Nat,
      cmpIntraNote (.Multi a b) (.Multi c d) =
        some (match compare a c with | .eq => compare b d | o => o)) ∧
    (∀ n : Nat,
      cmpClusterNumber (.Note (.Multi n 1)) (.Note (.Multi n 2)) = some .lt) ∧
    (∀ (x : Nat) (i : IntraNote),
      cmpClusterNumber (.InText x) (.Note i) = some .lt) := by
  refine ⟨?_, ?_, ?_, ?_, ?_⟩
  · intro a b
    simp only [cmpClusterNumber, cmpIntraNote, Option.some.injEq]
    exact Nat.compare_eq_lt
  · intro n d; rfl
  · intro a b c d
    simp only [cmpIntraNote, Option.bind_some]
    cases h : compare a c <;> simp
  · intro n
    simp only [cmpClusterNumber, cmpIntraNote, Option.bind_some]
    have h : compare n n = .eq := by
      rw [Nat.compare_eq_eq]
    rw [h]
    simp [compare, compareOfLessAndEq]
  · intro x i; rfl

/-- C10: cross-variant `IntraNote` comparison ignores the note numbers:
`Single a < Multi b d` for all `a b d`, e.g. `Single 9 < Multi 1 1`. -/
theorem intra_note_cross_variant_order :
    (∀ a b d : Nat, cmpIntraNote (.Single a) (.Multi b d) = some .lt) ∧
    cmpClusterNumber (.Note (.Single 9)) (.Note (.Multi 1 1)) = some .lt :=
  ⟨fun _ _ _ => rfl, rfl⟩

/-! ## Proofs: runtime panics (C7) -/

/-- C7 counterexample: `ClusterNumber::sub_note` hits a u32 subtraction
overflow (a panic in a checked build) on `Note(Single 1).sub_note(Single
2)`, and the `Element::Macro` arm panics at evaluation time when the
macro name is not in the macro table. -/
theorem runtime_panic_counterexample :
    sub_note (.Note (.Single 1)) (.Single 2) =
      .error "attempt to subtract with overflow" ∧
    evalMacroArm ([] : List (String × Unit)) "undefined-macro" id =
      .error "macro errors unimplemented!" :=
  ⟨rfl, rfl⟩

/-- C7 amended: `sub_note` on a `Note` receiver returns
`Some(a - b)` of the two note numbers exactly when the subtraction does
not underflow, and otherwise panics; an `InText` receiver yields `None`;
the `Macro` arm evaluates the looked-up body when the name is present and
panics with "macro errors unimplemented!" when it is not. -/
theorem runtime_panic_amended :
    (∀ (sn note : IntraNote),
      sub_note (.Note sn) note =
        if note.note_number ≤ sn.note_number
        then .ok (some (sn.note_number - note.note_number))
        else .error "attempt to subtract with overflow") ∧
    (∀ (x : Nat) (note : IntraNote), sub_note (.InText x) note = .ok none) ∧
    (∀ (macros : List (String × Nat)) (name : String),
      evalMacroArm macros name id =
        match macros.lookup name with
        | some m => .ok m
        | none => .error "macro errors unimplemented!") := by
  refine ⟨?_, ?_, ?_⟩
  · intro sn note
    cases sn <;> cases note <;>
      simp only [sub_note, checkedSubU32, IntraNote.note_number] <;>
      split <;> rfl
  · intro x note; rfl
  · intro macros name
    unfold evalMacroArm
    cases macros.lookup name <;> rfl

/-! ## Proofs: Choose branch selection (C3, C4) -/

theorem chooseLoop_some {E C G : Type} (evalSeq : List E → C × G)
    (ctx : CiteContext) (db : Db) (bs : List (IfThen E)) (c : C × G)
    (d : Bool) : chooseLoop evalSeq ctx db bs (some c) d = (some c, d) := by
  cases bs <;> rfl

theorem eval_ifthen_content {E C G : Type} (evalSeq : List E → C × G)
    (b : IfThen E) (ctx : CiteContext) (db : Db) :
    (eval_ifthen evalSeq b ctx db).content =
      if branchMatches ctx db b then some (evalSeq b.elements) else none := rfl

theorem eval_ifthen_disamb {E C G : Type} (evalSeq : List E → C × G)
    (b : IfThen E) (ctx : CiteContext) (db : Db) :
    (eval_ifthen evalSeq b ctx db).disambiguate =
      (hasDisambTest b && !(ctx.disamb_pass == some DisambPass.Conditionals)) := rfl

theorem chooseLoop_none_fst {E C G : Type} (evalSeq : List E → C × G)
    (ctx : CiteContext) (db : Db) (bs : List (IfThen E)) (d : Bool) :
    (chooseLoop evalSeq ctx db bs none d).1 =
      (bs.find? (branchMatches ctx db)).map fun b => evalSeq b.elements := by
  induction bs generalizing d with
  | nil => rfl
  | cons b bs ih =>
    cases hb : branchMatches ctx db b
    · simp only [chooseLoop, eval_ifthen_content, hb, Bool.false_eq_true,
        if_false, ih, List.find?_cons, hb]
    · simp only [chooseLoop, eval_ifthen_content, hb, if_true, chooseLoop_some,
        List.find?_cons, Option.map_some']

theorem chooseLoop_none_snd {E C G : Type} (evalSeq : List E → C × G)
    (ctx : CiteContext) (db : Db) (bs : List (IfThen E)) (d : Bool) :
    (chooseLoop evalSeq ctx db bs none d).2 =
      (d || (takeThroughFirstMatch ctx db bs).any fun b =>
        (eval_ifthen evalSeq b ctx db).disambiguate) := by
  induction bs generalizing d with
  | nil => simp [chooseLoop, takeThroughFirstMatch]
  | cons b bs ih =>
    cases hb : branchMatches ctx db b
    · simp only [chooseLoop, eval_ifthen_content, hb, Bool.false_eq_true,
        if_false, ih, takeThroughFirstMatch, List.any_cons, Bool.or_assoc]
    · simp only [chooseLoop, eval_ifthen_content, hb, if_true, chooseLoop_some,
        takeThroughFirstMatch, List.any_cons, List.any_nil, Bool.or_false]

/-- C3: `Choose` evaluation returns exactly the evaluation of the first
branch (the `<if>`, then the `<else-if>` list in source order) whose
condition set matches, and the `<else>` body's evaluation when none
matches — it always produces a result. -/
theorem choose_first_match {E C G : Type} (evalSeq : List E → C × G)
    (self : Choose E) (ctx : CiteContext) (db : Db) :
    (contentOf (chooseIntermediate evalSeq self ctx db).1,
      (chooseIntermediate evalSeq self ctx db).2) =
      (match (self.head :: self.rest).find? (branchMatches ctx db) with
       | some b => evalSeq b.elements
       | none => evalSeq self.last.elements) := by
  cases hh : branchMatches ctx db self.head
  · have hfst := chooseLoop_none_fst evalSeq ctx db self.rest
      (false || (eval_ifthen evalSeq self.head ctx db).disambiguate)
    rw [show (self.head :: self.rest).find? (branchMatches ctx db) =
        self.rest.find? (branchMatches ctx db) from by
      simp [List.find?_cons, hh]]
    cases hrest : self.rest.find? (branchMatches ctx db) with
    | none =>
      rw [hrest, Option.map_none'] at hfst
      cases hcg : evalSeq self.last.elements with
      | mk c g =>
        simp only [chooseIntermediate, eval_ifthen_content, hh,
          Bool.false_eq_true, if_false, hfst, hcg]
        split <;> rfl
    | some b =>
      rw [hrest, Option.map_some'] at hfst
      cases hcg : evalSeq b.elements with
      | mk c g =>
        rw [hcg] at hfst
        simp only [chooseIntermediate, eval_ifthen_content, hh,
          Bool.false_eq_true, if_false, hfst, hcg]
        split <;> rfl
  · cases hcg : evalSeq self.head.elements with
    | mk c g =>
      simp only [chooseIntermediate, eval_ifthen_content, hh, if_true, hcg,
        List.find?_cons]
      split <;> rfl

/-- C4: the `Choose` result is wrapped in `ConditionalDisamb` exactly
when some evaluated branch's conditions mention a `disambiguate` test and
the current pass is not the `Conditionals` pass (so during the
`Conditionals` pass it is never wrapped); and a `Disambiguate d`
predicate evaluates to `d == (current pass == Conditionals)`. -/
theorem choose_disamb_wrap {E C G : Type} (evalSeq : List E → C × G)
    (self : Choose E) (ctx : CiteContext) (db : Db) (d : Bool) :
    (isCondDisamb (chooseIntermediate evalSeq self ctx db).1 =
      ((evaluatedBranches self ctx db).any hasDisambTest &&
        !(ctx.disamb_pass == some DisambPass.Conditionals))) ∧
    condEval ctx db (.Disambiguate d) =
      some (d == (ctx.disamb_pass == some .Conditionals)) := by
  refine ⟨?_, rfl⟩
  cases hh : branchMatches ctx db self.head
  · have hfst := chooseLoop_none_fst evalSeq ctx db self.rest
      (false || (eval_ifthen evalSeq self.head ctx db).disambiguate)
    have hsnd := chooseLoop_none_snd evalSeq ctx db self.rest
      (false || (eval_ifthen evalSeq self.head ctx db).disambiguate)
    have hflag :
        (chooseLoop evalSeq ctx db self.rest none
          (false || (eval_ifthen evalSeq self.head ctx db).disambiguate)).2 =
        ((evaluatedBranches self ctx db).any hasDisambTest &&
          !(ctx.disamb_pass == some DisambPass.Conditionals)) := by
      rw [hsnd]
      simp only [eval_ifthen_disamb, evaluatedBranches, hh, Bool.false_eq_true,
        if_false, List.any_cons, Bool.false_or]
      cases hp : (ctx.disamb_pass == some DisambPass.Conditionals) <;>
        simp [List.any_eq_true]
    cases hrest : self.rest.find? (branchMatches ctx db) with
    | none =>
      rw [hrest, Option.map_none'] at hfst
      cases hcg : evalSeq self.last.elements with
      | mk c g =>
        simp only [chooseIntermediate, eval_ifthen_content, hh,
          Bool.false_eq_true, if_false, hfst, hcg, ← hflag]
        split <;> simp_all [isCondDisamb] <;> try assumption
    | some b =>
      rw [hrest, Option.map_some'] at hfst
      cases hcg : evalSeq b.elements with
      | mk c g =>
        rw [hcg] at hfst
        simp only [chooseIntermediate, eval_ifthen_content, hh,
          Bool.false_eq_true, if_false, hfst, hcg, ← hflag]
        split <;> simp_all [isCondDisamb] <;> try assumption
  · cases hcg : evalSeq self.head.elements with
    | mk c g =>
      have hflag :
          (false || (eval_ifthen evalSeq self.head ctx db).disambiguate) =
          ((evaluatedBranches self ctx db).any hasDisambTest &&
            !(ctx.disamb_pass == some DisambPass.Conditionals)) := by
        simp [eval_ifthen_disamb, evaluatedBranches, hh]
      simp only [chooseIntermediate, eval_ifthen_content, hh, if_true, hcg,
        ← hflag]
      split <;> simp_all [isCondDisamb]

/-! ## Proofs: match policies (C5) -/

/-- C5: the four match policies over the effective predicate booleans:
`All` iff every predicate holds, `Any` iff at least one holds, `None` iff
every predicate fails, `Nand` iff at least one fails; on an empty
effective list `All`/`None` trivially match while `Any`/`Nand` trivially
fail — and with the date-part feature disabled, a condition set of only
date-shape predicates is exactly the empty effective list. -/
theorem run_matcher_truth_table :
    (∀ bs : List Bool,
      (run_matcher bs .All = true ↔ ∀ b ∈ bs, b = true) ∧
      (run_matcher bs .Any = true ↔ ∃ b ∈ bs, b = true) ∧
      (run_matcher bs .None = true ↔ ∀ b ∈ bs, b = false) ∧
      (run_matcher bs .Nand = true ↔ ∃ b ∈ bs, b = false)) ∧
    (run_matcher [] .All = true ∧ run_matcher [] .None = true ∧
      run_matcher [] .Any = false ∧ run_matcher [] .Nand = false) ∧
    (∀ (ctx : CiteContext) (db : Db) (mt : Match) (dv : DateVariable),
      db.style.features.condition_date_parts = false →
      eval_condset ⟨mt, [.HasYearOnly dv, .HasMonthOrSeason dv, .HasDay dv]⟩
          ctx db =
        run_matcher [] mt) := by
  refine ⟨?_, ⟨rfl, rfl, rfl, rfl⟩, ?_⟩
  · intro bs
    refine ⟨?_, ?_, ?_, ?_⟩
    · simp [run_matcher, List.all_eq_true]
    · simp [run_matcher, List.any_eq_true]
    · simp [run_matcher, List.all_eq_true]
    · simp [run_matcher, List.any_eq_true]
  · intro ctx db mt dv h
    simp [eval_condset, condEval, h]

/-- Witness for C5's feature-flag conjunct at a concrete style with the
date-part feature off. -/
theorem run_matcher_truth_table_witness :
    eval_condset
        ⟨.Any, [.HasYearOnly (.OtherDate 0), .HasMonthOrSeason (.OtherDate 0),
          .HasDay (.OtherDate 0)]⟩ sampleCtx sampleDbNoDateParts =
      run_matcher [] .Any :=
  run_matcher_truth_table.2.2 sampleCtx sampleDbNoDateParts .Any
    (.OtherDate 0) rfl

/-! ## Proofs: variable resolution (C6) -/

/-- C6 counterexample: the `Dummy` name variable is reported absent even
when the reference contains it, so "every other variable is present iff
the reference contains it" fails at `Name(Dummy)`. -/
theorem has_variable_dummy_counterexample :
    ref_has_variable refDummyName (.Name .Dummy) = true ∧
    has_variable ctxDummy (.Name .Dummy) = false :=
  ⟨rfl, rfl⟩

/-- C6 amended: `has_variable` resolves the four synthesized number
variables (locator from the cite's locator list, page-first from the
presence and numericness of page, first-reference-note-number from the
computed note position, citation-number from the assigned bibliography
number), reports the `Dummy` name variable always absent, and resolves
every other variable by presence in the reference. -/
theorem has_variable_amended (ctx : CiteContext) :
    (has_variable ctx (.Number .Locator) = !ctx.cite.locators.isEmpty) ∧
    (has_variable ctx (.Number .PageFirst) =
      (match ctx.reference.number .Page with
       | some v => v.is_numeric
       | none => false)) ∧
    (has_variable ctx (.Number .FirstReferenceNoteNumber) =
      ctx.position.2.isSome) ∧
    (has_variable ctx (.Number .CitationNumber) = ctx.bib_number.isSome) ∧
    (has_variable ctx (.Name .Dummy) = false) ∧
    (∀ v : Variable,
      has_variable ctx (.Ordinary v) = (ctx.reference.ordinary v).isSome) ∧
    (∀ v : DateVariable,
      has_variable ctx (.Date v) = (ctx.reference.date v).isSome) ∧
    (∀ v : NameVariable, v ≠ .Dummy →
      has_variable ctx (.Name v) = (ctx.reference.name v).isSome) ∧
    (∀ v : NumberVariable, v ≠ .Locator → v ≠ .PageFirst →
      v ≠ .FirstReferenceNoteNumber → v ≠ .CitationNumber →
      has_variable ctx (.Number v) = (ctx.reference.number v).isSome) := by
  refine ⟨rfl, ?_, rfl, rfl, rfl, ?_, ?_, ?_, ?_⟩
  · show is_numeric ctx (.Number .Page) = _
    simp only [is_numeric, get_number]
    cases ctx.reference.number .Page <;> rfl
  · intro v; rfl
  · intro v; rfl
  · intro v hv; cases v with
    | Dummy => exact absurd rfl hv
    | OtherName k => rfl
  · intro v h1 h2 h3 h4; cases v with
    | Locator => exact absurd rfl h1
    | PageFirst => exact absurd rfl h2
    | FirstReferenceNoteNumber => exact absurd rfl h3
    | CitationNumber => exact absurd rfl h4
    | Page => rfl
    | OtherNumber k => rfl

/-! ## Proofs: incremental recomputation frame property (C1) -/

theorem computeOne_refGen (s : Store) (c : Nat) :
    (computeOne s c).refGen = s.refGen := by
  unfold computeOne; split <;> rfl

theorem computeOne_clusterCites (s : Store) (c : Nat) :
    (computeOne s c).clusterCites = s.clusterCites := by
  unfold computeOne; split <;> rfl

theorem computeOne_save (s : Store) (c : Nat) :
    (computeOne s c).save_updates = s.save_updates := by
  unfold computeOne; split <;> rfl

theorem computeOne_cached_other (s : Store) (c cid : Nat) (h : cid ≠ c) :
    (computeOne s c).cached cid = s.cached cid := by
  unfold computeOne; split
  · simp [updateFn, h]
  · rfl

theorem computeOne_not_stale (s : Store) (c : Nat)
    (h : staleCluster s c = false) : computeOne s c = s := by
  unfold computeOne
  rw [h]
  rfl

theorem stale_computeOne (s : Store) (c cid : Nat) (h : cid ≠ c) :
    staleCluster (computeOne s c) cid = staleCluster s cid := by
  unfold staleCluster
  rw [computeOne_cached_other s c cid h, computeOne_clusterCites,
    computeOne_refGen]

theorem computeOne_queue (s : Store) (c : Nat) :
    (computeOne s c).queue =
      s.queue ++
        if staleCluster s c then
          (if s.save_updates then [DocUpdate.Cluster c] else [])
        else [] := by
  unfold computeOne
  cases h : staleCluster s c <;> simp [h]

/-- The effect of demanding every cluster in a list once: the queue grows
by one event per stale cluster in list order, and the cache entry of
every cluster that is not demanded, or not stale, is physically
untouched. -/
theorem compute_fold_spec (ids : List Nat) (s1 : Store) (hnodup : ids.Nodup)
    (hsave : s1.save_updates = true) :
    ((ids.foldl computeOne s1).queue =
      s1.queue ++ (ids.filter fun c => staleCluster s1 c).map DocUpdate.Cluster) ∧
    (∀ cid, (cid ∉ ids ∨ staleCluster s1 cid = false) →
      (ids.foldl computeOne s1).cached cid = s1.cached cid) := by
  induction ids generalizing s1 with
  | nil => exact ⟨by simp, fun cid _ => rfl⟩
  | cons c cs ih =>
    obtain ⟨hc, hcs⟩ := List.nodup_cons.mp hnodup
    have hsave2 : (computeOne s1 c).save_updates = true := by
      rw [computeOne_save]; exact hsave
    obtain ⟨ihq, ihc⟩ := ih (computeOne s1 c) hcs hsave2
    constructor
    · rw [List.foldl_cons, ihq, computeOne_queue, hsave]
      have hfilter : cs.filter (fun x => staleCluster (computeOne s1 c) x) =
          cs.filter (fun x => staleCluster s1 x) :=
        List.filter_congr fun x hx =>
          stale_computeOne s1 c x (fun he => hc (he ▸ hx))
      rw [hfilter]
      cases h : staleCluster s1 c
      · simp [List.filter_cons, h]
      · simp [List.filter_cons, h]
    · intro cid hcid
      rw [List.foldl_cons]
      by_cases heq : cid = c
      · subst heq
        have hst : staleCluster s1 cid = false := by
          rcases hcid with h | h
          · exact absurd (List.mem_cons_self cid cs) h
          · exact h
        rw [computeOne_not_stale s1 cid hst]
        obtain ⟨-, ihc1⟩ := ih s1 hcs hsave
        exact ihc1 cid (Or.inr hst)
      · refine (ihc cid ?_).trans (computeOne_cached_other s1 c cid heq)
        rcases hcid with h | h
        · exact Or.inl fun hm => h (List.mem_cons_of_mem _ hm)
        · exact Or.inr (by rw [stale_computeOne s1 c cid heq]; exact h)

/-- Whether a cluster (transitively) depends on a reference: some of its
cites names it. -/
def dependsOn (s : Store) (cid : Nat) (r : String) : Bool :=
  decide (r ∈ s.clusterCites cid)

/-- After one reference input is rewritten, a fresh cluster is stale
exactly when it depends on that reference. -/
theorem stale_after_insert (s : Store) (r : String) (v : Nat) (cid : Nat)
    (hfresh : staleCluster s cid = false)
    (hwf : ∀ val g, s.cached cid = some (val, g) → g ≤ s.curGen) :
    staleCluster (insert_reference s r v) cid = dependsOn s cid r := by
  cases hcache : s.cached cid with
  | none => rw [staleCluster, hcache] at hfresh; exact absurd hfresh (by simp)
  | some p =>
    obtain ⟨val, g⟩ := p
    have hg : g ≤ s.curGen := hwf val g hcache
    have hfresh2 : ∀ x ∈ s.clusterCites cid, ¬ g < s.refGen x := by
      rw [staleCluster, hcache] at hfresh
      intro x hx
      have h5 := List.any_eq_false.mp hfresh x hx
      simpa using h5
    rw [show staleCluster (insert_reference s r v) cid =
        (s.clusterCites cid).any
          (fun x => g < updateFn s.refGen r (s.curGen + 1) x) from by
      rw [staleCluster]
      show (match s.cached cid with
        | none => true
        | some (_, g) => (s.clusterCites cid).any
            fun x => g < updateFn s.refGen r (s.curGen + 1) x) = _
      rw [hcache]]
    by_cases hr : r ∈ s.clusterCites cid
    · have : (s.clusterCites cid).any
          (fun x => g < updateFn s.refGen r (s.curGen + 1) x) = true := by
        rw [List.any_eq_true]
        exact ⟨r, hr, by simp [updateFn]; omega⟩
      rw [this, dependsOn, decide_eq_true hr]
    · have : (s.clusterCites cid).any
          (fun x => g < updateFn s.refGen r (s.curGen + 1) x) = false := by
        rw [List.any_eq_false]
        intro x hx
        have hne : x ≠ r := fun he => hr (he ▸ hx)
        simp only [updateFn, hne, if_false, decide_eq_true_eq]
        exact hfresh2 x hx
      rw [this, dependsOn]
      simp [hr]

/-- C1: after every cluster is computed and the queue drained, rewriting
one reference and recomputing records a re-execution event for exactly
the clusters depending on that reference (in cluster order); the cached
output of every other cluster is physically untouched (same cache entry,
not recomputed); and draining with no input change yields an empty update
set. `hwf` is the store invariant that no cached generation exceeds the
global one. -/
theorem store_frame_property (s : Store) (r : String) (v : Nat)
    (hfresh : ∀ cid ∈ s.clusterIds, staleCluster s cid = false)
    (hwf : ∀ cid val g, s.cached cid = some (val, g) → g ≤ s.curGen)
    (hnodup : s.clusterIds.Nodup)
    (hsave : s.save_updates = true)
    (hq : s.queue = []) :
    ((compute (insert_reference s r v)).queue =
      (s.clusterIds.filter fun cid => dependsOn s cid r).map DocUpdate.Cluster) ∧
    (∀ cid, dependsOn s cid r = false →
      (compute (insert_reference s r v)).cached cid = s.cached cid) ∧
    (batched_updates s).1 = [] := by
  have hstale : ∀ cid ∈ s.clusterIds,
      staleCluster (insert_reference s r v) cid = dependsOn s cid r :=
    fun cid hcid =>
      stale_after_insert s r v cid (hfresh cid hcid) (hwf cid)
  obtain ⟨hq1, hc1⟩ := compute_fold_spec (insert_reference s r v).clusterIds
    (insert_reference s r v) hnodup hsave
  refine ⟨?_, ?_, ?_⟩
  · show ((insert_reference s r v).clusterIds.foldl computeOne
      (insert_reference s r v)).queue = _
    rw [hq1]
    have : (insert_reference s r v).clusterIds.filter
        (fun c => staleCluster (insert_reference s r v) c) =
        s.clusterIds.filter (fun cid => dependsOn s cid r) :=
      List.filter_congr fun x hx => hstale x hx
    rw [this]
    show s.queue ++ _ = _
    rw [hq]
    simp
  · intro cid hdep
    show ((insert_reference s r v).clusterIds.foldl computeOne
      (insert_reference s r v)).cached cid = s.cached cid
    by_cases hm : cid ∈ s.clusterIds
    · exact hc1 cid (Or.inr ((hstale cid hm).trans hdep))
    · exact hc1 cid (Or.inl hm)
  · obtain ⟨hq2, -⟩ := compute_fold_spec s.clusterIds s hnodup hsave
    have hnil : s.clusterIds.filter (fun c => staleCluster s c) = [] :=
      List.filter_eq_nil_iff.mpr fun c hc => by simp [hfresh c hc]
    simp only [batched_updates, hsave, Bool.not_true, Bool.false_eq_true,
      if_false]
    show (compute s).queue = []
    rw [show (compute s).queue = (s.clusterIds.foldl computeOne s).queue from
      rfl, hq2, hnil, hq]
    rfl

/-- Witness for C1 at a concrete fully-computed two-cluster store:
rewrite reference "a" (cited only by cluster 1), recompute, and observe
exactly one event, an untouched cache entry for cluster 2, and an empty
drain without changes. -/
theorem store_frame_property_witness :
    ((compute (insert_reference storeW "a" 99)).queue =
      (storeW.clusterIds.filter fun cid => dependsOn storeW cid "a").map
        DocUpdate.Cluster) ∧
    (compute (insert_reference storeW "a" 99)).cached 2 = storeW.cached 2 ∧
    (batched_updates storeW).1 = [] := by
  have hwf : ∀ cid val g, storeW.cached cid = some (val, g) →
      g ≤ storeW.curGen := by
    intro cid val g h
    simp only [storeW] at h ⊢
    split at h
    · simp only [Option.some.injEq, Prod.mk.injEq] at h
      obtain ⟨-, hg⟩ := h
      omega
    · split at h
      · simp only [Option.some.injEq, Prod.mk.injEq] at h
        obtain ⟨-, hg⟩ := h
        omega
      · exact absurd h (by simp)
  obtain ⟨h1, h2, h3⟩ :=
    store_frame_property storeW "a" 99 (by decide) hwf (by decide) rfl rfl
  exact ⟨h1, h2 2 (by decide), h3⟩

/-- Witness for C6's amended fallback conjuncts at a non-`Dummy` name
variable and the `Page` number variable. -/
theorem has_variable_amended_witness :
    has_variable ctxDummy (.Name (.OtherName 0)) =
      (ctxDummy.reference.name (.OtherName 0)).isSome ∧
    has_variable ctxDummy (.Number .Page) =
      (ctxDummy.reference.number .Page).isSome :=
  ⟨(has_variable_amended ctxDummy).2.2.2.2.2.2.2.1 (.OtherName 0) (by decide),
    (has_variable_amended ctxDummy).2.2.2.2.2.2.2.2 .Page (by decide)
      (by decide) (by decide) (by decide)⟩

/-! ## Proofs: numeric parser round trip (C8) — decimal digits -/

theorem digitChar_mem (d : Nat) (h : d < 10) : digitChar d ∈ digitChars := by
  interval_cases d <;> decide

theorem digitChar_toNat (d : Nat) (h : d < 10) :
    (digitChar d).toNat = 48 + d := by
  interval_cases d <;> decide

theorem natDigitsAux_append (n : Nat) :
    ∀ acc, natDigitsAux n acc = natDigits n ++ acc := by
  induction n using Nat.strong_induction_on with
  | _ n ih =>
    intro acc
    conv_rhs => rw [natDigits, natDigitsAux]
    rw [natDigitsAux]
    by_cases h : n < 10
    · rw [if_pos h, if_pos h]
      rfl
    · have hd : n / 10 < n := Nat.div_lt_self (by omega) (by omega)
      rw [if_neg h, if_neg h, ih (n / 10) hd, ih (n / 10) hd]
      simp

theorem natDigits_ne_nil (n : Nat) : natDigits n ≠ [] := by
  rw [natDigits, natDigitsAux]
  by_cases h : n < 10
  · simp [h]
  · simp only [h, if_false]
    rw [natDigitsAux_append]
    simp

theorem natDigits_mem (n : Nat) : ∀ c ∈ natDigits n, c ∈ digitChars := by
  induction n using Nat.strong_induction_on with
  | _ n ih =>
    intro c hc
    by_cases h : n < 10
    · rw [natDigits, natDigitsAux] at hc
      simp only [h, if_true] at hc
      have hc2 : c = digitChar n := by simpa using hc
      rw [hc2]
      exact digitChar_mem n h
    · have hd : n / 10 < n := Nat.div_lt_self (by omega) (by omega)
      rw [natDigits, natDigitsAux] at hc
      simp only [h, if_false] at hc
      rw [natDigitsAux_append] at hc
      rcases List.mem_append.mp hc with h1 | h1
      · exact ih (n / 10) hd c h1
      · have hc2 : c = digitChar (n % 10) := by simpa using h1
        rw [hc2]
        exact digitChar_mem (n % 10) (Nat.mod_lt _ (by omega))

theorem digitsVal_append_singleton (l : List Char) (c : Char) :
    digitsVal (l ++ [c]) = 10 * digitsVal l + (c.toNat - 48) := by
  rw [digitsVal, List.foldl_append]
  rfl

theorem digitsVal_natDigits (n : Nat) : digitsVal (natDigits n) = n := by
  induction n using Nat.strong_induction_on with
  | _ n ih =>
    by_cases h : n < 10
    · rw [natDigits, natDigitsAux]
      simp only [h, if_true]
      show 10 * 0 + ((digitChar n).toNat - 48) = n
      rw [digitChar_toNat n h]
      omega
    · have hd : n / 10 < n := Nat.div_lt_self (by omega) (by omega)
      rw [natDigits, natDigitsAux]
      simp only [h, if_false]
      rw [natDigitsAux_append, digitsVal_append_singleton, ih (n / 10) hd,
        digitChar_toNat (n % 10) (Nat.mod_lt _ (by omega))]
      omega

/-! ## Proofs: round trip — scanner toolkit -/

theorem takeWhile1_split (q : Char → Bool) : PSplit (takeWhile1 q) := by
  intro l x r h
  rw [takeWhile1] at h
  split at h
  · exact absurd h (by simp)
  · obtain ⟨hx, hr⟩ := Prod.mk.injEq .. ▸ Option.some.inj h
    rw [← hx, ← hr]
    exact (List.takeWhile_append_dropWhile q l).symm

theorem takeWhile1_some (q : Char → Bool) (l : List Char) (x r : List Char)
    (h : takeWhile1 q l = some (x, r)) :
    x = l.takeWhile q ∧ r = l.dropWhile q ∧ x ≠ [] := by
  rw [takeWhile1] at h
  split at h
  · exact absurd h (by simp)
  · obtain ⟨hx, hr⟩ := Prod.mk.injEq .. ▸ Option.some.inj h
    refine ⟨hx.symm, hr.symm, ?_⟩
    rw [← hx] at *
    rename_i hempty
    simp only [List.isEmpty_iff] at hempty
    intro hx2
    exact hempty (hx ▸ hx2)

theorem takeWhile1_consume (q : Char → Bool) : PConsume (takeWhile1 q) := by
  intro l x r h
  have hsplit := takeWhile1_split q l x r h
  obtain ⟨-, -, hne⟩ := takeWhile1_some q l x r h
  rw [hsplit, List.length_append]
  cases x with
  | nil => exact absurd rfl hne
  | cons a t => simp

theorem takeWhile1_none_of_head (q : Char → Bool) (c : Char) (t : List Char)
    (h : q c = false) : takeWhile1 q (c :: t) = none := by
  rw [takeWhile1, List.takeWhile_cons, h]
  simp

theorem takeWhile1_nil (q : Char → Bool) : takeWhile1 q [] = none := rfl

theorem takeWhile1_none_elim (q : Char → Bool) (l : List Char)
    (h : takeWhile1 q l = none) :
    l = [] ∨ ∃ c t, l = c :: t ∧ q c = false := by
  cases l with
  | nil => exact Or.inl rfl
  | cons c t =>
    refine Or.inr ⟨c, t, rfl, ?_⟩
    by_contra hq
    rw [takeWhile1, List.takeWhile_cons, eq_true_of_ne_false hq] at h
    simp at h

theorem takeWhile_stop_append (q : Char → Bool)
    (hq : ∀ c, sepSpaceChars.contains c = true → q c = false)
    (s rest : List Char) (hrest : sepStop rest = true) :
    (s ++ rest).takeWhile q = s.takeWhile q ∧
    (s ++ rest).dropWhile q = s.dropWhile q ++ rest := by
  induction s with
  | nil =>
    simp only [List.nil_append, List.takeWhile_nil, List.dropWhile_nil]
    cases rest with
    | nil => simp
    | cons c t =>
      have hqc : q c = false := hq c (by simpa [sepStop] using hrest)
      rw [List.takeWhile_cons, List.dropWhile_cons, hqc]
      simp
  | cons a s ih =>
    obtain ⟨ih1, ih2⟩ := ih
    cases hqa : q a <;>
      simp [List.takeWhile_cons, List.dropWhile_cons, hqa, ih1, ih2]

theorem takeWhile1_ext (q : Char → Bool)
    (hq : ∀ c, sepSpaceChars.contains c = true → q c = false) :
    PExt (takeWhile1 q) := by
  intro s rest hrest
  obtain ⟨h1, h2⟩ := takeWhile_stop_append q hq s rest hrest
  rw [takeWhile1, takeWhile1, h1, h2]
  cases he : (s.takeWhile q).isEmpty <;> simp [he]

theorem takeWhile_all (q : Char → Bool) (s : List Char)
    (h : ∀ c ∈ s, q c = true) :
    s.takeWhile q = s ∧ s.dropWhile q = [] := by
  induction s with
  | nil => simp
  | cons a t ih =>
    obtain ⟨ih1, ih2⟩ := ih fun c hc => h c (List.mem_cons_of_mem a hc)
    rw [List.takeWhile_cons, List.dropWhile_cons, h a (List.mem_cons_self a t)]
    simp [ih1, ih2]

/-! ## Proofs: round trip — character class facts -/

theorem sepSpace_not_digit (c : Char) (h : sepSpaceChars.contains c = true) :
    digitChars.contains c = false := by
  have hm : c ∈ sepSpaceChars := List.elem_iff.mp h
  fin_cases hm <;> decide

theorem sepSpace_in_numPre (c : Char) (h : sepSpaceChars.contains c = true) :
    (!numPreExcl.contains c) = false := by
  have hm : c ∈ sepSpaceChars := List.elem_iff.mp h
  fin_cases hm <;> decide

theorem digit_in_numPre (c : Char) (h : c ∈ digitChars) :
    (!numPreExcl.contains c) = false := by
  fin_cases h <;> decide

theorem digit_not_sepSpace (c : Char) (h : c ∈ digitChars) :
    sepSpaceChars.contains c = false := by
  fin_cases h <;> decide

theorem numPre_not_sepSpace (c : Char) (h : (!numPreExcl.contains c) = true) :
    sepSpaceChars.contains c = false := by
  by_contra h2
  rw [sepSpace_in_numPre c (eq_true_of_ne_false h2)] at h
  exact absurd h (by simp)

theorem pext_digit1 : PExt digit1 :=
  takeWhile1_ext _ sepSpace_not_digit

theorem pext_num_pre : PExt num_pre :=
  takeWhile1_ext _ sepSpace_in_numPre

theorem pext_num_suf : PExt num_suf :=
  takeWhile1_ext _ fun c h => by rw [h]; rfl

/-! ## Proofs: round trip — `many0` equations -/

theorem manyAux_canonical {α : Type} (p : List Char → PRes α) :
    ∀ (f : Nat) (l : List Char), l.length < f →
      manyAux p f l = manyAux p (l.length + 1) l := by
  intro f
  induction f using Nat.strong_induction_on with
  | _ f ih =>
    intro l hl
    cases f with
    | zero => exact absurd hl (by omega)
    | succ f2 =>
      simp only [manyAux]
      cases hp : p l with
      | none => rfl
      | some xr =>
        obtain ⟨x, r⟩ := xr
        by_cases hr : r.length < l.length
        · simp only [hr, if_true]
          rw [ih f2 (by omega) r (by omega), ih l.length (by omega) r (by omega)]
        · simp [hr]

theorem many0_eq_none {α : Type} (p : List Char → PRes α) (l : List Char)
    (h : p l = none) : many0 p l = ([], l) := by
  rw [many0]
  simp only [manyAux]
  rw [h]

theorem many0_eq_noprogress {α : Type} (p : List Char → PRes α)
    (l : List Char) (x : α) (r : List Char) (h : p l = some (x, r))
    (hr : ¬ r.length < l.length) : many0 p l = ([], l) := by
  rw [many0]
  simp only [manyAux]
  rw [h]
  simp [hr]

theorem many0_eq_step {α : Type} (p : List Char → PRes α) (l : List Char)
    (x : α) (r : List Char) (h : p l = some (x, r))
    (hr : r.length < l.length) :
    many0 p l = (x :: (many0 p r).1, (many0 p r).2) := by
  conv_lhs => rw [many0, manyAux]
  rw [h]
  simp only [hr, if_true]
  rw [manyAux_canonical p l.length r hr]
  rw [show manyAux p (r.length + 1) r = many0 p r from rfl]

theorem many0_rem_le {α : Type} (p : List Char → PRes α) :
    ∀ (k : Nat) (l : List Char), l.length ≤ k →
      (many0 p l).2.length ≤ l.length := by
  intro k
  induction k with
  | zero =>
    intro l hl
    have hnil : l = [] := List.length_eq_zero.mp (by omega)
    subst hnil
    cases hp : p [] with
    | none => rw [many0_eq_none p [] hp]
    | some xr =>
      obtain ⟨x, r⟩ := xr
      rw [many0_eq_noprogress p [] x r hp (by simp)]
  | succ k ih =>
    intro l hl
    cases hp : p l with
    | none => rw [many0_eq_none p l hp]
    | some xr =>
      obtain ⟨x, r⟩ := xr
      by_cases hr : r.length < l.length
      · rw [many0_eq_step p l x r hp hr]
        have h2 := ih r (by omega)
        show (many0 p r).2.length ≤ l.length
        omega
      · rw [many0_eq_noprogress p l x r hp hr]

theorem many0_final {α : Type} (p : List Char → PRes α) (hcons : PConsume p) :
    ∀ (k : Nat) (l : List Char), l.length ≤ k →
      p ((many0 p l).2) = none := by
  intro k
  induction k with
  | zero =>
    intro l hl
    have hnil : l = [] := List.length_eq_zero.mp (by omega)
    subst hnil
    cases hp : p [] with
    | none => rw [many0_eq_none p [] hp]; exact hp
    | some xr =>
      obtain ⟨x, r⟩ := xr
      exact absurd (hcons [] x r hp) (by simp)
  | succ k ih =>
    intro l hl
    cases hp : p l with
    | none => rw [many0_eq_none p l hp]; exact hp
    | some xr =>
      obtain ⟨x, r⟩ := xr
      have hr : r.length < l.length := hcons l x r hp
      rw [many0_eq_step p l x r hp hr]
      exact ih r (by omega)

theorem pext_many0 {α : Type} (p : List Char → PRes α) (hext : PExt p)
    (hcons : PConsume p) :
    ∀ (k : Nat) (s rest : List Char), s.length ≤ k → sepStop rest = true →
      many0 p (s ++ rest) = ((many0 p s).1, (many0 p s).2 ++ rest) := by
  intro k
  induction k with
  | zero =>
    intro s rest hs hrest
    have hnil : s = [] := List.length_eq_zero.mp (by omega)
    subst hnil
    cases hp : p [] with
    | none =>
      have h2 : p ([] ++ rest) = none := by
        have h3 := hext [] rest hrest
        rw [hp] at h3
        exact h3
      rw [many0_eq_none p ([] ++ rest) h2, many0_eq_none p [] hp]
    | some xr =>
      obtain ⟨x, r⟩ := xr
      exact absurd (hcons [] x r hp) (by simp)
  | succ k ih =>
    intro s rest hs hrest
    cases hp : p s with
    | none =>
      have h2 : p (s ++ rest) = none := by
        have h3 := hext s rest hrest
        rw [hp] at h3
        exact h3
      rw [many0_eq_none p (s ++ rest) h2, many0_eq_none p s hp]
    | some xr =>
      obtain ⟨x, r⟩ := xr
      have hr : r.length < s.length := hcons s x r hp
      have h2 : p (s ++ rest) = some (x, r ++ rest) := by
        have h3 := hext s rest hrest
        rw [hp] at h3
        exact h3
      have hr2 : (r ++ rest).length < (s ++ rest).length := by
        simp only [List.length_append]
        omega
      rw [many0_eq_step p (s ++ rest) x (r ++ rest) h2 hr2,
        many0_eq_step p s x r hp hr, ih r rest (by omega) hrest]

/-- Every piece scanned by `many0` of a maximal-munch scanner satisfies
the scanner's predicate, and the pieces concatenate back to the consumed
prefix. -/
theorem many0_pieces (q : Char → Bool) :
    ∀ (k : Nat) (l : List Char), l.length ≤ k →
      (∀ piece ∈ (many0 (takeWhile1 q) l).1, ∀ c ∈ piece, q c = true) ∧
      l = ((many0 (takeWhile1 q) l).1).flatten ++ (many0 (takeWhile1 q) l).2 := by
  intro k
  induction k with
  | zero =>
    intro l hl
    have hnil : l = [] := List.length_eq_zero.mp (by omega)
    subst hnil
    rw [many0_eq_none _ _ (takeWhile1_nil q)]
    exact ⟨by simp, rfl⟩
  | succ k ih =>
    intro l hl
    cases hp : takeWhile1 q l with
    | none =>
      rw [many0_eq_none _ _ hp]
      exact ⟨by simp, rfl⟩
    | some xr =>
      obtain ⟨x, r⟩ := xr
      have hr : r.length < l.length := takeWhile1_consume q l x r hp
      obtain ⟨ihp, ihs⟩ := ih r (by omega)
      rw [many0_eq_step _ _ _ _ hp hr]
      constructor
      · intro piece hpiece c hc
        rcases List.mem_cons.mp hpiece with hp1 | hp1
        · obtain ⟨hx, -, -⟩ := takeWhile1_some q l x r hp
          exact List.mem_takeWhile_imp (by rw [← hx, ← hp1]; exact hc)
        · exact ihp piece hp1 c hc
      · have hsplit := takeWhile1_split q l x r hp
        calc l = x ++ r := hsplit
        _ = x ++ (((many0 (takeWhile1 q) r).1).flatten ++
              (many0 (takeWhile1 q) r).2) := by rw [← ihs]
        _ = _ := by simp

theorem many1_eq_none {α : Type} (p : List Char → PRes α) (l : List Char)
    (h : p l = none) : many1 p l = none := by
  rw [many1, h]

theorem many1_eq_some {α : Type} (p : List Char → PRes α) (l : List Char)
    (x : α) (r : List Char) (h : p l = some (x, r)) :
    many1 p l = some (x :: (many0 p r).1, (many0 p r).2) := by
  rw [many1, h]

theorem many1_inv {α : Type} (p : List Char → PRes α) (l : List Char)
    (xs : List α) (r : List Char) (h : many1 p l = some (xs, r)) :
    ∃ x r1, p l = some (x, r1) ∧ xs = x :: (many0 p r1).1 ∧
      r = (many0 p r1).2 := by
  rw [many1] at h
  cases hp : p l with
  | none => rw [hp] at h; exact absurd h (by simp)
  | some xr =>
    obtain ⟨x, r1⟩ := xr
    rw [hp] at h
    refine ⟨x, r1, rfl, ?_, ?_⟩
    · have := congrArg Prod.fst (Option.some.inj h)
      simpa using this.symm
    · have := congrArg Prod.snd (Option.some.inj h)
      simpa using this.symm

theorem many1_consume {α : Type} (p : List Char → PRes α)
    (hcons : PConsume p) : PConsume (many1 p) := by
  intro l xs r h
  obtain ⟨x, r1, hp, -, hr⟩ := many1_inv p l xs r h
  have h1 : r1.length < l.length := hcons l x r1 hp
  have h2 := many0_rem_le p r1.length r1 (le_refl _)
  rw [hr]
  omega

theorem pext_many1 {α : Type} (p : List Char → PRes α) (hext : PExt p)
    (hcons : PConsume p) : PExt (many1 p) := by
  intro s rest hrest
  cases hp : p s with
  | none =>
    have h2 : p (s ++ rest) = none := by
      have h3 := hext s rest hrest
      rw [hp] at h3
      exact h3
    rw [many1_eq_none p (s ++ rest) h2, many1_eq_none p s hp]
  | some xr =>
    obtain ⟨x, r⟩ := xr
    have h2 : p (s ++ rest) = some (x, r ++ rest) := by
      have h3 := hext s rest hrest
      rw [hp] at h3
      exact h3
    rw [many1_eq_some p (s ++ rest) x (r ++ rest) h2,
      many1_eq_some p s x r hp,
      pext_many0 p hext hcons r.length r rest (le_refl _) hrest]

theorem many1_pieces (q : Char → Bool) (l : List Char)
    (xs : List (List Char)) (r : List Char)
    (h : many1 (takeWhile1 q) l = some (xs, r)) :
    (∀ piece ∈ xs, ∀ c ∈ piece, q c = true) ∧ l = xs.flatten ++ r := by
  obtain ⟨x, r1, hp, hxs, hr⟩ := many1_inv _ l xs r h
  obtain ⟨hx, -, -⟩ := takeWhile1_some q l x r1 hp
  have hsplit := takeWhile1_split q l x r1 hp
  obtain ⟨hpieces, hflat⟩ := many0_pieces q r1.length r1 (le_refl _)
  constructor
  · intro piece hpiece c hc
    rw [hxs] at hpiece
    rcases List.mem_cons.mp hpiece with h1 | h1
    · exact List.mem_takeWhile_imp (by rw [← hx, ← h1]; exact hc)
    · exact hpieces piece h1 c hc
  · rw [hxs, hr]
    calc l = x ++ r1 := hsplit
    _ = x ++ (((many0 (takeWhile1 q) r1).1).flatten ++
          (many0 (takeWhile1 q) r1).2) := by rw [← hflat]
    _ = _ := by simp

/-! ## Proofs: round trip — composite parsers -/

theorem consume_num_pre : PConsume num_pre := takeWhile1_consume _
theorem consume_num_suf : PConsume num_suf := takeWhile1_consume _
theorem consume_digit1 : PConsume digit1 := takeWhile1_consume _

theorem pext_int : PExt int := by
  intro s rest hrest
  rw [int, int]
  cases h1 : digit1 s with
  | none =>
    have h1' : digit1 (s ++ rest) = none := by
      have h := pext_digit1 s rest hrest
      rw [h1] at h
      exact h
    rw [h1']
  | some dr =>
    obtain ⟨ds, r⟩ := dr
    have h1' : digit1 (s ++ rest) = some (ds, r ++ rest) := by
      have h := pext_digit1 s rest hrest
      rw [h1] at h
      exact h
    rw [h1']
    simp only []
    cases from_digits ds <;> rfl

theorem pext_num : PExt num := by
  intro s rest hrest
  rw [num, num]
  cases h1 : int s with
  | none =>
    have h1' : int (s ++ rest) = none := by
      have h := pext_int s rest hrest
      rw [h1] at h
      exact h
    rw [h1']
  | some vr =>
    obtain ⟨v, r⟩ := vr
    have h1' : int (s ++ rest) = some (v, r ++ rest) := by
      have h := pext_int s rest hrest
      rw [h1] at h
      exact h
    rw [h1']

theorem pext_prefix1 : PExt prefix1 := by
  intro s rest hrest
  rw [prefix1, prefix1]
  cases h1 : many1 num_pre s with
  | none =>
    have h1' : many1 num_pre (s ++ rest) = none := by
      have h := pext_many1 num_pre pext_num_pre consume_num_pre s rest hrest
      rw [h1] at h
      exact h
    rw [h1']
  | some pr =>
    obtain ⟨pres, r1⟩ := pr
    have h1' : many1 num_pre (s ++ rest) = some (pres, r1 ++ rest) := by
      have h := pext_many1 num_pre pext_num_pre consume_num_pre s rest hrest
      rw [h1] at h
      exact h
    rw [h1']
    simp only []
    cases h2 : digit1 r1 with
    | none =>
      have h2' : digit1 (r1 ++ rest) = none := by
        have h := pext_digit1 r1 rest hrest
        rw [h2] at h
        exact h
      rw [h2']
    | some dr =>
      obtain ⟨ds, r2⟩ := dr
      have h2' : digit1 (r1 ++ rest) = some (ds, r2 ++ rest) := by
        have h := pext_digit1 r1 rest hrest
        rw [h2] at h
        exact h
      rw [h2']
      simp only []
      rw [pext_many0 num_suf pext_num_suf consume_num_suf r2.length r2 rest
          (le_refl _) hrest]

theorem pext_suffix1 : PExt suffix1 := by
  intro s rest hrest
  rw [suffix1, suffix1,
    pext_many0 num_pre pext_num_pre consume_num_pre s.length s rest
      (le_refl _) hrest]
  cases hA : many0 num_pre s with
  | mk pres r1 =>
    simp only []
    cases h2 : digit1 r1 with
    | none =>
      have h2' : digit1 (r1 ++ rest) = none := by
        have h := pext_digit1 r1 rest hrest
        rw [h2] at h
        exact h
      rw [h2']
    | some dr =>
      obtain ⟨ds, r2⟩ := dr
      have h2' : digit1 (r1 ++ rest) = some (ds, r2 ++ rest) := by
        have h := pext_digit1 r1 rest hrest
        rw [h2] at h
        exact h
      rw [h2']
      simp only []
      cases h3 : many1 num_suf r2 with
      | none =>
        have h3' : many1 num_suf (r2 ++ rest) = none := by
          have h := pext_many1 num_suf pext_num_suf consume_num_suf r2 rest hrest
          rw [h3] at h
          exact h
        rw [h3']
      | some sr =>
        obtain ⟨sufs, r3⟩ := sr
        have h3' : many1 num_suf (r2 ++ rest) = some (sufs, r3 ++ rest) := by
          have h := pext_many1 num_suf pext_num_suf consume_num_suf r2 rest hrest
          rw [h3] at h
          exact h
        rw [h3']

theorem pext_num_ish : PExt num_ish := by
  intro s rest hrest
  rw [num_ish, num_ish]
  cases h1 : prefix1 s with
  | some tr =>
    obtain ⟨t, r⟩ := tr
    have h1' : prefix1 (s ++ rest) = some (t, r ++ rest) := by
      have h := pext_prefix1 s rest hrest
      rw [h1] at h
      exact h
    rw [h1']
  | none =>
    have h1' : prefix1 (s ++ rest) = none := by
      have h := pext_prefix1 s rest hrest
      rw [h1] at h
      exact h
    rw [h1']
    simp only []
    cases h2 : suffix1 s with
    | some tr =>
      obtain ⟨t, r⟩ := tr
      have h2' : suffix1 (s ++ rest) = some (t, r ++ rest) := by
        have h := pext_suffix1 s rest hrest
        rw [h2] at h
        exact h
      rw [h2']
    | none =>
      have h2' : suffix1 (s ++ rest) = none := by
        have h := pext_suffix1 s rest hrest
        rw [h2] at h
        exact h
      rw [h2']
      exact pext_num s rest hrest

theorem int_inv (l : List Char) (v : Nat) (r : List Char)
    (h : int l = some (v, r)) :
    ∃ ds, digit1 l = some (ds, r) ∧ from_digits ds = some v ∧
      v < 4294967296 := by
  rw [int] at h
  cases h1 : digit1 l with
  | none => rw [h1] at h; exact absurd h (by simp)
  | some dr =>
    obtain ⟨ds, r1⟩ := dr
    rw [h1] at h
    simp only [] at h
    cases h2 : from_digits ds with
    | none => rw [h2] at h; exact absurd h (by simp)
    | some v1 =>
      rw [h2] at h
      simp only [Option.some.injEq, Prod.mk.injEq] at h
      obtain ⟨hv, hr⟩ := h
      subst hv
      subst hr
      refine ⟨ds, rfl, h2, ?_⟩
      rw [from_digits] at h2
      split at h2
      · simp only [Option.some.injEq] at h2
        omega
      · exact absurd h2 (by simp)

theorem num_inv (l : List Char) (t : NumericToken) (r : List Char)
    (h : num l = some (t, r)) :
    ∃ n, t = .Num n ∧ n < 4294967296 ∧ int l = some (n, r) := by
  rw [num] at h
  cases h1 : int l with
  | none => rw [h1] at h; exact absurd h (by simp)
  | some vr =>
    obtain ⟨v, r1⟩ := vr
    rw [h1] at h
    simp only [Option.some.injEq, Prod.mk.injEq] at h
    obtain ⟨ht, hr⟩ := h
    obtain ⟨ds, -, -, hlt⟩ := int_inv l v r1 h1
    refine ⟨v, ht.symm, hlt, ?_⟩
    rw [hr]

theorem prefix1_shape (l : List Char) (t : NumericToken) (r : List Char)
    (h : prefix1 l = some (t, r)) :
    ∃ a, t = .Affixed a ∧ l = a ++ r ∧ a ≠ [] ∧
      (∀ c ∈ a, sepSpaceChars.contains c = false) := by
  rw [prefix1] at h
  cases h1 : many1 num_pre l with
  | none => rw [h1] at h; exact absurd h (by simp)
  | some pr =>
    obtain ⟨pres, r1⟩ := pr
    rw [h1] at h
    simp only [] at h
    cases h2 : digit1 r1 with
    | none => rw [h2] at h; exact absurd h (by simp)
    | some dr =>
      obtain ⟨ds, r2⟩ := dr
      rw [h2] at h
      simp only [] at h
      cases h3 : many0 num_suf r2 with
      | mk sufs r3 =>
        rw [h3] at h
        simp only [Option.some.injEq, Prod.mk.injEq] at h
        obtain ⟨ht, hr⟩ := h
        obtain ⟨hpres, hl1⟩ := many1_pieces _ l pres r1 h1
        obtain ⟨hds, hr1, -⟩ := takeWhile1_some _ r1 ds r2 h2
        have hl2 : r1 = ds ++ r2 := takeWhile1_split _ r1 ds r2 h2
        obtain ⟨hsufs, hl3⟩ :=
          many0_pieces (fun c => !sepSpaceChars.contains c) r2.length r2
            (le_refl _)
        have h3' :
            many0 (takeWhile1 fun c => !sepSpaceChars.contains c) r2 =
              (sufs, r3) := h3
        rw [h3'] at hsufs hl3
        refine ⟨pres.flatten ++ ds ++ sufs.flatten, ht.symm, ?_, ?_, ?_⟩
        · rw [hl1, hl2, hl3, ← hr]
          simp
        · have : ds ≠ [] := (takeWhile1_some _ r1 ds r2 h2).2.2
          simp [this]
        · intro c hc
          rcases List.mem_append.mp hc with hc1 | hc1
          · rcases List.mem_append.mp hc1 with hc2 | hc2
            · obtain ⟨piece, hpm, hcm⟩ := List.mem_flatten.mp hc2
              exact numPre_not_sepSpace c (hpres piece hpm c hcm)
            · have hq := List.mem_takeWhile_imp (hds ▸ hc2)
              exact digit_not_sepSpace c (List.elem_iff.mp hq)
          · obtain ⟨piece, hpm, hcm⟩ := List.mem_flatten.mp hc1
            have hq := hsufs piece hpm c hcm
            simpa using hq

theorem suffix1_shape (l : List Char) (t : NumericToken) (r : List Char)
    (h : suffix1 l = some (t, r)) :
    ∃ a, t = .Affixed a ∧ l = a ++ r ∧ a ≠ [] ∧
      (∀ c ∈ a, sepSpaceChars.contains c = false) := by
  rw [suffix1] at h
  cases hA : many0 num_pre l with
  | mk pres r1 =>
    rw [hA] at h
    simp only [] at h
    cases h2 : digit1 r1 with
    | none => rw [h2] at h; exact absurd h (by simp)
    | some dr =>
      obtain ⟨ds, r2⟩ := dr
      rw [h2] at h
      simp only [] at h
      cases h3 : many1 num_suf r2 with
      | none => rw [h3] at h; exact absurd h (by simp)
      | some sr =>
        obtain ⟨sufs, r3⟩ := sr
        rw [h3] at h
        simp only [Option.some.injEq, Prod.mk.injEq] at h
        obtain ⟨ht, hr⟩ := h
        obtain ⟨hpres, hl1⟩ :=
          many0_pieces (fun c => !numPreExcl.contains c) l.length l (le_refl _)
        have hA' :
            many0 (takeWhile1 fun c => !numPreExcl.contains c) l =
              (pres, r1) := hA
        rw [hA'] at hpres hl1
        obtain ⟨hds, -, -⟩ := takeWhile1_some _ r1 ds r2 h2
        have hl2 : r1 = ds ++ r2 := takeWhile1_split _ r1 ds r2 h2
        obtain ⟨hsufs, hl3⟩ := many1_pieces _ r2 sufs r3 h3
        refine ⟨pres.flatten ++ ds ++ sufs.flatten, ht.symm, ?_, ?_, ?_⟩
        · rw [hl1, hl2, hl3, ← hr]
          simp
        · have : ds ≠ [] := (takeWhile1_some _ r1 ds r2 h2).2.2
          simp [this]
        · intro c hc
          rcases List.mem_append.mp hc with hc1 | hc1
          · rcases List.mem_append.mp hc1 with hc2 | hc2
            · obtain ⟨piece, hpm, hcm⟩ := List.mem_flatten.mp hc2
              exact numPre_not_sepSpace c (hpres piece hpm c hcm)
            · have hq := List.mem_takeWhile_imp (hds ▸ hc2)
              exact digit_not_sepSpace c (List.elem_iff.mp hq)
          · obtain ⟨piece, hpm, hcm⟩ := List.mem_flatten.mp hc1
            have hq := hsufs piece hpm c hcm
            simpa using hq

theorem num_ish_cases (l : List Char) (t : NumericToken) (r : List Char)
    (h : num_ish l = some (t, r)) :
    prefix1 l = some (t, r) ∨
    (prefix1 l = none ∧ suffix1 l = some (t, r)) ∨
    (prefix1 l = none ∧ suffix1 l = none ∧ num l = some (t, r)) := by
  rw [num_ish] at h
  cases h1 : prefix1 l with
  | some res =>
    rw [h1] at h
    exact Or.inl (h ▸ rfl)
  | none =>
    rw [h1] at h
    simp only [] at h
    cases h2 : suffix1 l with
    | some res =>
      rw [h2] at h
      exact Or.inr (Or.inl ⟨rfl, h ▸ rfl⟩)
    | none =>
      rw [h2] at h
      simp only [] at h
      exact Or.inr (Or.inr ⟨rfl, rfl, h⟩)

theorem consume_prefix1 : PConsume prefix1 := by
  intro l t r h
  obtain ⟨a, -, hl, hne, -⟩ := prefix1_shape l t r h
  have := List.length_pos.mpr hne
  rw [hl, List.length_append]
  omega

theorem consume_suffix1 : PConsume suffix1 := by
  intro l t r h
  obtain ⟨a, -, hl, hne, -⟩ := suffix1_shape l t r h
  have := List.length_pos.mpr hne
  rw [hl, List.length_append]
  omega

theorem consume_num : PConsume num := by
  intro l t r h
  obtain ⟨n, -, -, hint⟩ := num_inv l t r h
  obtain ⟨ds, hd, -, -⟩ := int_inv l n r hint
  exact consume_digit1 l ds r hd

theorem consume_num_ish : PConsume num_ish := by
  intro l t r h
  rcases num_ish_cases l t r h with h1 | ⟨-, h1⟩ | ⟨-, -, h1⟩
  · exact consume_prefix1 l t r h1
  · exact consume_suffix1 l t r h1
  · exact consume_num l t r h1

theorem numsuf_none_sepStop (r : List Char) (h : num_suf r = none) :
    sepStop r = true := by
  rcases takeWhile1_none_elim _ r h with h1 | ⟨c, t2, h1, h2⟩
  · rw [h1]; rfl
  · rw [h1]
    show sepSpaceChars.contains c = true
    simpa using h2

theorem numsuf_none_of_sepStop (rest : List Char) (h : sepStop rest = true) :
    num_suf rest = none := by
  cases rest with
  | nil => rfl
  | cons c t =>
    have hc : sepSpaceChars.contains c = true := h
    exact takeWhile1_none_of_head _ c t (by simp only [hc, Bool.not_true])

theorem dropWhile_head_not (q : Char → Bool) (l : List Char) (c : Char)
    (t : List Char) (h : l.dropWhile q = c :: t) : q c = false := by
  induction l with
  | nil => exact absurd h (by simp)
  | cons a l ih =>
    rw [List.dropWhile_cons] at h
    by_cases hqa : q a = true
    · rw [if_pos hqa] at h
      exact ih h
    · rw [if_neg hqa] at h
      obtain ⟨hac, -⟩ := List.cons.injEq .. ▸ h
      rw [← hac]
      simpa using hqa

theorem prefix1_rem (l : List Char) (t : NumericToken) (r : List Char)
    (h : prefix1 l = some (t, r)) : num_suf r = none := by
  rw [prefix1] at h
  cases h1 : many1 num_pre l with
  | none => rw [h1] at h; exact absurd h (by simp)
  | some pr =>
    obtain ⟨pres, r1⟩ := pr
    rw [h1] at h
    simp only [] at h
    cases h2 : digit1 r1 with
    | none => rw [h2] at h; exact absurd h (by simp)
    | some dr =>
      obtain ⟨ds, r2⟩ := dr
      rw [h2] at h
      simp only [] at h
      cases h3 : many0 num_suf r2 with
      | mk sufs r3 =>
        rw [h3] at h
        simp only [Option.some.injEq, Prod.mk.injEq] at h
        obtain ⟨-, hr⟩ := h
        have hfin := many0_final num_suf consume_num_suf r2.length r2 (le_refl _)
        rw [h3] at hfin
        rw [← hr]
        exact hfin

theorem suffix1_rem (l : List Char) (t : NumericToken) (r : List Char)
    (h : suffix1 l = some (t, r)) : num_suf r = none := by
  rw [suffix1] at h
  cases hA : many0 num_pre l with
  | mk pres r1 =>
    rw [hA] at h
    simp only [] at h
    cases h2 : digit1 r1 with
    | none => rw [h2] at h; exact absurd h (by simp)
    | some dr =>
      obtain ⟨ds, r2⟩ := dr
      rw [h2] at h
      simp only [] at h
      cases h3 : many1 num_suf r2 with
      | none => rw [h3] at h; exact absurd h (by simp)
      | some sr =>
        obtain ⟨sufs, r3⟩ := sr
        rw [h3] at h
        simp only [Option.some.injEq, Prod.mk.injEq] at h
        obtain ⟨-, hr⟩ := h
        obtain ⟨x, r4, -, -, hr3⟩ := many1_inv num_suf r2 sufs r3 h3
        have hfin := many0_final num_suf consume_num_suf r4.length r4 (le_refl _)
        rw [← hr, hr3]
        exact hfin

theorem num_ish_sepStop (l : List Char) (t : NumericToken) (r : List Char)
    (h : num_ish l = some (t, r)) : sepStop r = true := by
  rcases num_ish_cases l t r h with h1 | ⟨-, h1⟩ | ⟨hpre, hsuf, h1⟩
  · exact numsuf_none_sepStop r (prefix1_rem l t r h1)
  · exact numsuf_none_sepStop r (suffix1_rem l t r h1)
  · obtain ⟨n, -, -, hint⟩ := num_inv l t r h1
    obtain ⟨ds, hd, -, -⟩ := int_inv l n r hint
    cases hr : r with
    | nil => rfl
    | cons c t2 =>
      obtain ⟨hds, hrd, hdne⟩ := takeWhile1_some _ l ds r hd
      have hsplit := takeWhile1_split _ l ds r hd
      have hcnd : digitChars.contains c = false := by
        refine dropWhile_head_not _ l c t2 ?_
        rw [← hrd, hr]
      show sepSpaceChars.contains c = true
      by_contra hcs
      have hcs2 : sepSpaceChars.contains c = false := by
        cases hv : sepSpaceChars.contains c
        · rfl
        · exact absurd hv hcs
      obtain ⟨d, ds2, hds2⟩ : ∃ d ds2, ds = d :: ds2 := by
        cases hv : ds with
        | nil => exact absurd hv hdne
        | cons d ds2 => exact ⟨d, ds2, rfl⟩
      have hd_digit : d ∈ digitChars := by
        have := List.mem_takeWhile_imp
          (show d ∈ l.takeWhile (fun c => digitChars.contains c) from by
            rw [← hds, hds2]; exact List.mem_cons_self d ds2)
        exact List.elem_iff.mp this
      have hlform : l = d :: (ds2 ++ r) := by
        rw [hsplit, hds2]; rfl
      have hnp : num_pre l = none := by
        rw [hlform]
        exact takeWhile1_none_of_head _ d _ (digit_in_numPre d hd_digit)
      have hns : num_suf r ≠ none := by
        rw [hr]
        intro hcon
        rcases takeWhile1_none_elim _ (c :: t2) hcon with h2 | ⟨c2, t3, h2, h3⟩
        · exact absurd h2 (by simp)
        · obtain ⟨hc2, -⟩ := List.cons.injEq .. ▸ h2
          rw [← hc2] at h3
          rw [hcs2] at h3
          exact absurd h3 (by simp)
      cases hns2 : num_suf r with
      | none => exact hns hns2
      | some sr =>
        obtain ⟨x2, r2'⟩ := sr
        have hsuf2 : suffix1 l =
            some (.Affixed (([] : List (List Char)).flatten ++ ds ++
              (x2 :: (many0 num_suf r2').1).flatten),
              (many0 num_suf r2').2) := by
          rw [suffix1, many0_eq_none num_pre l hnp]
          simp only []
          rw [hd]
          simp only []
          rw [many1_eq_some num_suf r x2 r2' hns2]
        rw [hsuf] at hsuf2
        exact absurd hsuf2.symm (by simp)

theorem num_ish_good (l : List Char) (t : NumericToken) (r : List Char)
    (h : num_ish l = some (t, r)) : goodNumish t = true := by
  have hstop := num_ish_sepStop l t r h
  have affixed_case :
      ∀ a, t = .Affixed a → l = a ++ r → a ≠ [] →
        (∀ c ∈ a, sepSpaceChars.contains c = false) → goodNumish t = true := by
    intro a ht hl hne hchars
    have hext := pext_num_ish a r hstop
    rw [← hl, h] at hext
    have hparse : num_ish a = some (.Affixed a, []) := by
      cases hna : num_ish a with
      | none => rw [hna] at hext; exact absurd hext (by simp)
      | some xr =>
        obtain ⟨x, r1⟩ := xr
        rw [hna] at hext
        simp only [Option.some.injEq, Prod.mk.injEq] at hext
        obtain ⟨hx, hr⟩ := hext
        have hr1 : r1 = [] := by
          have h2 := congrArg List.length hr
          rw [List.length_append] at h2
          exact List.length_eq_zero.mp (by omega)
        rw [hr1, ← hx, ht]
    rw [ht]
    simp only [goodNumish, Bool.and_eq_true, decide_eq_true_eq]
    refine ⟨⟨by simpa using hne, ?_⟩, hparse⟩
    rw [List.all_eq_true]
    intro c hc
    show (!sepSpaceChars.contains c) = true
    rw [hchars c hc]
    rfl
  rcases num_ish_cases l t r h with h1 | ⟨-, h1⟩ | ⟨-, -, h1⟩
  · obtain ⟨a, ht, hl, hne, hchars⟩ := prefix1_shape l t r h1
    exact affixed_case a ht hl hne hchars
  · obtain ⟨a, ht, hl, hne, hchars⟩ := suffix1_shape l t r h1
    exact affixed_case a ht hl hne hchars
  · obtain ⟨n, ht, hlt, -⟩ := num_inv l t r h1
    rw [ht]
    simp [goodNumish, hlt]

/-! ## Proofs: round trip — separators -/

theorem sep_from_sepTok (c : Char) (t : NumericToken)
    (h : sep_from c = some t) : isSepTok t = true := by
  rw [sep_from.eq_def] at h
  split at h
  · rw [← Option.some.inj h]; rfl
  · rw [← Option.some.inj h]; rfl
  · rw [← Option.some.inj h]; rfl
  · exact Option.noConfusion h

theorem oneOf_inv (cs : List Char) (l : List Char) (c : Char) (r : List Char)
    (h : oneOf cs l = some (c, r)) :
    ∃ xs, l = c :: xs ∧ r = xs ∧ cs.contains c = true := by
  cases l with
  | nil => exact absurd h (by simp [oneOf])
  | cons x xs =>
    rw [oneOf] at h
    split at h
    · simp only [Option.some.injEq, Prod.mk.injEq] at h
      obtain ⟨hc, hr⟩ := h
      subst hc
      subst hr
      rename_i hmem
      exact ⟨xs, rfl, rfl, hmem⟩
    · exact absurd h (by simp)

theorem sep_inv (l : List Char) (t : NumericToken) (r : List Char)
    (h : sep l = some (t, r)) : isSepTok t = true ∧ r.length < l.length := by
  rw [sep] at h
  cases hA : many0 (pchar ' ') l with
  | mk sp1 r1 =>
    rw [hA] at h
    simp only [] at h
    cases h2 : oneOf [',', '&', '-'] r1 with
    | none => rw [h2] at h; exact absurd h (by simp)
    | some cr =>
      obtain ⟨c, r2⟩ := cr
      rw [h2] at h
      simp only [] at h
      cases hB : many0 (pchar ' ') r2 with
      | mk sp2 r3 =>
        rw [hB] at h
        simp only [] at h
        cases h3 : sep_from c with
        | none => rw [h3] at h; exact absurd h (by simp)
        | some t1 =>
          rw [h3] at h
          simp only [Option.some.injEq, Prod.mk.injEq] at h
          obtain ⟨ht, hr⟩ := h
          constructor
          · rw [← ht]
            exact sep_from_sepTok c t1 h3
          · obtain ⟨xs, hl1, hr2, -⟩ := oneOf_inv _ r1 c r2 h2
            have hle1 := many0_rem_le (pchar ' ') l.length l (le_refl _)
            rw [hA] at hle1
            have hle2 := many0_rem_le (pchar ' ') r2.length r2 (le_refl _)
            rw [hB] at hle2
            have h5 : r1.length = xs.length + 1 := by rw [hl1]; rfl
            have h6 : r2.length = xs.length := by rw [hr2]
            rw [← hr]
            simp only at hle1 hle2 h5 h6 ⊢
            omega

theorem consume_sep : PConsume sep := fun l t r h => (sep_inv l t r h).2

theorem sepNumPair_inv (l : List Char) (pr : NumericToken × NumericToken)
    (r : List Char) (h : sepNumPair l = some (pr, r)) :
    ∃ r1, sep l = some (pr.1, r1) ∧ num_ish r1 = some (pr.2, r) := by
  rw [sepNumPair] at h
  cases h1 : sep l with
  | none => rw [h1] at h; exact absurd h (by simp)
  | some sr =>
    obtain ⟨s1, r1⟩ := sr
    rw [h1] at h
    simp only [] at h
    cases h2 : num_ish r1 with
    | none => rw [h2] at h; exact absurd h (by simp)
    | some nr =>
      obtain ⟨n1, r2⟩ := nr
      rw [h2] at h
      simp only [Option.some.injEq, Prod.mk.injEq] at h
      obtain ⟨hp, hr⟩ := h
      rw [← hp, ← hr]
      exact ⟨r1, rfl, h2⟩

theorem consume_sepNumPair : PConsume sepNumPair := by
  intro l pr r h
  obtain ⟨r1, h1, h2⟩ := sepNumPair_inv l pr r h
  have ha := consume_sep l pr.1 r1 h1
  have hb := consume_num_ish r1 pr.2 r h2
  omega

/-! ## Proofs: round trip — rendering -/

theorem foldl_render (ts : List NumericToken) :
    ∀ init, ts.foldl (fun s t => s ++ tokenChars t) init =
      init ++ ts.foldl (fun s t => s ++ tokenChars t) [] := by
  induction ts with
  | nil => intro init; simp
  | cons t ts ih =>
    intro init
    rw [List.foldl_cons, List.foldl_cons, ih (init ++ tokenChars t),
      ih ([] ++ tokenChars t)]
    simp

theorem tts_cons (t : NumericToken) (ts : List NumericToken) :
    tokens_to_string (t :: ts) = tokenChars t ++ tokens_to_string ts := by
  rw [tokens_to_string, tokens_to_string, List.foldl_cons, foldl_render]
  simp

theorem foldl_pairs_append (ps : List (NumericToken × NumericToken)) :
    ∀ init, ps.foldl (fun acc p => acc ++ [p.1, p.2]) init =
      init ++ flattenPairs ps := by
  induction ps with
  | nil => intro init; simp [flattenPairs]
  | cons p ps ih =>
    obtain ⟨s, t⟩ := p
    intro init
    rw [List.foldl_cons, ih, flattenPairs]
    simp

theorem flattenPairs_pairsOf :
    ∀ ts, goodPairsToks ts = true → flattenPairs (pairsOf ts) = ts
  | [], _ => rfl
  | [x], h => absurd h (by rw [show goodPairsToks [x] = false from rfl]; simp)
  | s :: t :: more, h => by
    have hmore : goodPairsToks more = true := by
      have h2 : (isSepTok s && goodNumish t && goodPairsToks more) = true := h
      simp only [Bool.and_eq_true] at h2
      exact h2.2
    rw [pairsOf, flattenPairs, flattenPairs_pairsOf more hmore]

theorem goodNumish_head (t : NumericToken) (h : goodNumish t = true)
    (more : List Char) : notSpaceHead (tokenChars t ++ more) = true := by
  cases t with
  | Num n =>
    obtain ⟨d, tl, hnd⟩ : ∃ d tl, natDigits n = d :: tl := by
      cases hv : natDigits n with
      | nil => exact absurd hv (natDigits_ne_nil n)
      | cons d tl => exact ⟨d, tl, rfl⟩
    have hd : d ∈ digitChars := natDigits_mem n d (by
      rw [hnd]; exact List.mem_cons_self d tl)
    show notSpaceHead (natDigits n ++ more) = true
    rw [hnd]
    show (d != ' ') = true
    have hns := digit_not_sepSpace d hd
    simp only [bne_iff_ne, ne_eq]
    intro he
    rw [he] at hns
    exact absurd hns (by decide)
  | Affixed a =>
    simp only [goodNumish, Bool.and_eq_true] at h
    obtain ⟨⟨hne, hall⟩, -⟩ := h
    cases ha : a with
    | nil => rw [ha] at hne; exact absurd hne (by simp)
    | cons c tl =>
      show notSpaceHead ((c :: tl) ++ more) = true
      show (c != ' ') = true
      rw [List.all_eq_true] at hall
      have hc := hall c (by rw [ha]; exact List.mem_cons_self c tl)
      simp only [Bool.not_eq_true'] at hc
      simp only [bne_iff_ne, ne_eq]
      intro he
      rw [he] at hc
      exact absurd hc (by decide)
  | Comma => exact absurd h (by simp [goodNumish])
  | Hyphen => exact absurd h (by simp [goodNumish])
  | Ampersand => exact absurd h (by simp [goodNumish])

theorem sepTok_head (t : NumericToken) (h : isSepTok t = true)
    (more : List Char) : sepStop (tokenChars t ++ more) = true := by
  cases t with
  | Comma => rfl
  | Hyphen => rfl
  | Ampersand => rfl
  | Num n => exact absurd h (by simp [isSepTok])
  | Affixed a => exact absurd h (by simp [isSepTok])

theorem goodPairs_render_sepStop :
    ∀ ts, goodPairsToks ts = true → sepStop (tokens_to_string ts) = true
  | [], _ => rfl
  | [x], h => absurd h (by rw [show goodPairsToks [x] = false from rfl]; simp)
  | s :: t :: more, h => by
    have hs : isSepTok s = true := by
      have h2 : (isSepTok s && goodNumish t && goodPairsToks more) = true := h
      simp only [Bool.and_eq_true] at h2
      exact h2.1.1
    rw [tts_cons]
    exact sepTok_head s hs _

theorem many0_pchar_notSpace (rest : List Char)
    (h : notSpaceHead rest = true) : many0 (pchar ' ') rest = ([], rest) := by
  cases rest with
  | nil => exact many0_eq_none _ _ rfl
  | cons c t =>
    have hc : ¬ c = ' ' := by simpa [notSpaceHead] using h
    refine many0_eq_none _ _ ?_
    show pchar ' ' (c :: t) = none
    rw [pchar]
    simp [hc]

theorem sep_render (sp : NumericToken) (rest : List Char)
    (hsp : isSepTok sp = true) (hrest : notSpaceHead rest = true) :
    sep (tokenChars sp ++ rest) = some (sp, rest) := by
  have hsp0 := many0_pchar_notSpace rest hrest
  cases sp with
  | Num n => exact absurd hsp (by simp [isSepTok])
  | Affixed a => exact absurd hsp (by simp [isSepTok])
  | Comma =>
    show sep (',' :: ' ' :: rest) = some (.Comma, rest)
    rw [sep, many0_eq_none (pchar ' ') (',' :: ' ' :: rest) (by rw [pchar]; simp)]
    simp only []
    rw [show oneOf [',', '&', '-'] (',' :: ' ' :: rest) =
        some (',', ' ' :: rest) from by rw [oneOf]; simp]
    simp only []
    rw [many0_eq_step (pchar ' ') (' ' :: rest) ' ' rest
        (by rw [pchar]; simp) (by simp), hsp0]
    rfl
  | Hyphen =>
    show sep ('-' :: rest) = some (.Hyphen, rest)
    rw [sep, many0_eq_none (pchar ' ') ('-' :: rest) (by rw [pchar]; simp)]
    simp only []
    rw [show oneOf [',', '&', '-'] ('-' :: rest) = some ('-', rest) from by
      rw [oneOf]; simp]
    simp only []
    rw [hsp0]
    rfl
  | Ampersand =>
    show sep (' ' :: '&' :: ' ' :: rest) = some (.Ampersand, rest)
    rw [sep, many0_eq_step (pchar ' ') (' ' :: '&' :: ' ' :: rest) ' '
        ('&' :: ' ' :: rest) (by rw [pchar]; simp) (by simp),
      many0_eq_none (pchar ' ') ('&' :: ' ' :: rest) (by rw [pchar]; simp)]
    simp only []
    rw [show oneOf [',', '&', '-'] ('&' :: ' ' :: rest) =
        some ('&', ' ' :: rest) from by rw [oneOf]; simp]
    simp only []
    rw [many0_eq_step (pchar ' ') (' ' :: rest) ' ' rest
        (by rw [pchar]; simp) (by simp), hsp0]
    rfl

theorem num_ish_render (t : NumericToken) (rest : List Char)
    (ht : goodNumish t = true) (hrest : sepStop rest = true) :
    num_ish (tokenChars t ++ rest) = some (t, rest) := by
  cases t with
  | Comma => exact absurd ht (by simp [goodNumish])
  | Hyphen => exact absurd ht (by simp [goodNumish])
  | Ampersand => exact absurd ht (by simp [goodNumish])
  | Affixed a =>
    have hparse : num_ish a = some (.Affixed a, []) := by
      simp only [goodNumish, Bool.and_eq_true, decide_eq_true_eq] at ht
      exact ht.2
    have h := pext_num_ish a rest hrest
    rw [hparse] at h
    simpa using h
  | Num n =>
    have hn : n < 4294967296 := by simpa [goodNumish] using ht
    obtain ⟨d, tl, hnd⟩ : ∃ d tl, natDigits n = d :: tl := by
      cases hv : natDigits n with
      | nil => exact absurd hv (natDigits_ne_nil n)
      | cons d tl => exact ⟨d, tl, rfl⟩
    have hd_digit : d ∈ digitChars := natDigits_mem n d (by
      rw [hnd]; exact List.mem_cons_self d tl)
    show num_ish (natDigits n ++ rest) = some (.Num n, rest)
    have hnp : num_pre (natDigits n ++ rest) = none := by
      rw [hnd]
      exact takeWhile1_none_of_head _ d _ (digit_in_numPre d hd_digit)
    have hdig : digit1 (natDigits n ++ rest) = some (natDigits n, rest) := by
      have h1 := takeWhile_stop_append (fun c => digitChars.contains c)
        sepSpace_not_digit (natDigits n) rest hrest
      have h2 := takeWhile_all (fun c => digitChars.contains c) (natDigits n)
        (fun c hc => List.elem_iff.mpr (natDigits_mem n c hc))
      show takeWhile1 (fun c => digitChars.contains c)
          (natDigits n ++ rest) = some (natDigits n, rest)
      rw [takeWhile1]
      rw [h1.1, h1.2, h2.1, h2.2]
      simp [natDigits_ne_nil n]
    have hpre : prefix1 (natDigits n ++ rest) = none := by
      rw [prefix1, many1_eq_none num_pre _ hnp]
    have hsuf : suffix1 (natDigits n ++ rest) = none := by
      rw [suffix1, many0_eq_none num_pre _ hnp]
      simp only []
      rw [hdig]
      simp only []
      rw [many1_eq_none num_suf rest (numsuf_none_of_sepStop rest hrest)]
    have hint : int (natDigits n ++ rest) = some (n, rest) := by
      rw [int, hdig]
      simp only []
      simp [from_digits, digitsVal_natDigits, hn]
    rw [num_ish, hpre]
    simp only []
    rw [hsuf]
    simp only []
    rw [num, hint]

theorem sepTok_chars_ne (sp : NumericToken) (h : isSepTok sp = true) :
    tokenChars sp ≠ [] := by
  cases sp with
  | Num n => exact absurd h (by simp [isSepTok])
  | Affixed a => exact absurd h (by simp [isSepTok])
  | Comma => simp [tokenChars]
  | Hyphen => simp [tokenChars]
  | Ampersand => simp [tokenChars]

theorem render_pairs :
    ∀ ts, goodPairsToks ts = true →
      many0 sepNumPair (tokens_to_string ts) = (pairsOf ts, [])
  | [], _ => by
    rw [show tokens_to_string [] = [] from rfl,
      many0_eq_none sepNumPair [] rfl]
    rfl
  | [x], h => absurd h (by rw [show goodPairsToks [x] = false from rfl]; simp)
  | sp :: t :: more, h => by
    have h2 : (isSepTok sp && goodNumish t && goodPairsToks more) = true := h
    simp only [Bool.and_eq_true] at h2
    obtain ⟨⟨hsp, ht⟩, hmore⟩ := h2
    rw [tts_cons, tts_cons]
    have hsep := sep_render sp (tokenChars t ++ tokens_to_string more) hsp
      (goodNumish_head t ht _)
    have hni := num_ish_render t (tokens_to_string more) ht
      (goodPairs_render_sepStop more hmore)
    have hpair : sepNumPair
        (tokenChars sp ++ (tokenChars t ++ tokens_to_string more)) =
        some ((sp, t), tokens_to_string more) := by
      rw [sepNumPair, hsep]
      simp only []
      rw [hni]
    have hlen : (tokens_to_string more).length <
        (tokenChars sp ++ (tokenChars t ++ tokens_to_string more)).length := by
      have := List.length_pos.mpr (sepTok_chars_ne sp hsp)
      simp only [List.length_append]
      omega
    rw [many0_eq_step sepNumPair _ _ _ hpair hlen,
      render_pairs more hmore, pairsOf]

/-! ## Proofs: round trip — parsed token lists are good -/

theorem many0_sepNumPair_good :
    ∀ (k : Nat) (l : List Char), l.length ≤ k →
      goodPairsToks (flattenPairs (many0 sepNumPair l).1) = true := by
  intro k
  induction k with
  | zero =>
    intro l hl
    have hnil : l = [] := List.length_eq_zero.mp (by omega)
    subst hnil
    rw [many0_eq_none sepNumPair [] rfl]
    rfl
  | succ k ih =>
    intro l hl
    cases hp : sepNumPair l with
    | none =>
      rw [many0_eq_none sepNumPair l hp]
      rfl
    | some pr2 =>
      obtain ⟨pr, r⟩ := pr2
      have hr : r.length < l.length := consume_sepNumPair l pr r hp
      rw [many0_eq_step sepNumPair l pr r hp hr]
      obtain ⟨r1, hsep, hni⟩ := sepNumPair_inv l pr r hp
      obtain ⟨s, t⟩ := pr
      show goodPairsToks (flattenPairs ((s, t) ::
        (many0 sepNumPair r).1)) = true
      rw [flattenPairs]
      show (isSepTok s && goodNumish t &&
        goodPairsToks (flattenPairs (many0 sepNumPair r).1)) = true
      simp only [Bool.and_eq_true]
      exact ⟨⟨(sep_inv l s r1 hsep).1, num_ish_good r1 t r hni⟩,
        ih r (by omega)⟩

theorem num_tokens_good (l : List Char) (ts : List NumericToken)
    (r : List Char) (h : num_tokens l = some (ts, r)) :
    goodToks ts = true := by
  rw [num_tokens] at h
  cases h1 : num_ish l with
  | none => rw [h1] at h; exact absurd h (by simp)
  | some nr =>
    obtain ⟨n, r1⟩ := nr
    rw [h1] at h
    simp only [] at h
    cases hm : many0 sepNumPair r1 with
    | mk pairs r2 =>
      rw [hm] at h
      simp only [Option.some.injEq, Prod.mk.injEq] at h
      obtain ⟨hts, -⟩ := h
      rw [← hts, foldl_pairs_append]
      show goodToks (n :: flattenPairs pairs) = true
      show (goodNumish n && goodPairsToks (flattenPairs pairs)) = true
      simp only [Bool.and_eq_true]
      refine ⟨num_ish_good l n r1 h1, ?_⟩
      have := many0_sepNumPair_good r1.length r1 (le_refl _)
      rw [hm] at this
      exact this

/-- C8: numeric parser round trip — `to_string` of a parsed value renders
`Num` tokens as decimal, `Affixed` tokens verbatim and the separators as
comma-space / hyphen / space-ampersand-space, and re-parsing that
normalized string yields exactly the same token sequence. -/
theorem numeric_round_trip (s : List Char) (ts : List NumericToken)
    (h : numericValueFrom s = .Tokens ts) :
    (NumericValue.Tokens ts).to_string = tokens_to_string ts ∧
    numericValueFrom (tokens_to_string ts) = .Tokens ts := by
  refine ⟨rfl, ?_⟩
  have h2 : num_tokens s = some (ts, []) := by
    rw [numericValueFrom] at h
    cases h3 : num_tokens s with
    | none => rw [h3] at h; exact absurd h (by simp)
    | some pr =>
      obtain ⟨parsed, rem⟩ := pr
      rw [h3] at h
      cases hrem : rem with
      | nil =>
        rw [hrem] at h h3
        simp only [List.isEmpty_nil, if_true, NumericValue.Tokens.injEq] at h
        rw [← h]
      | cons c cs =>
        rw [hrem] at h
        exact absurd h (by simp)
  have hgood : goodToks ts = true := num_tokens_good s ts [] h2
  cases hts : ts with
  | nil => rw [hts] at hgood; exact absurd hgood (by simp [goodToks])
  | cons t0 rest =>
    rw [hts] at hgood
    have hgood2 : (goodNumish t0 && goodPairsToks rest) = true := hgood
    simp only [Bool.and_eq_true] at hgood2
    obtain ⟨ht0, hrest⟩ := hgood2
    rw [tts_cons]
    have hni := num_ish_render t0 (tokens_to_string rest) ht0
      (goodPairs_render_sepStop rest hrest)
    rw [numericValueFrom, num_tokens, hni]
    simp only []
    rw [render_pairs rest hrest]
    simp only []
    rw [foldl_pairs_append, flattenPairs_pairsOf rest hrest]
    rfl

/-- Witness for C8 at the concrete input "2 -4 , 5". -/
theorem numeric_round_trip_witness :
    (NumericValue.Tokens
        [.Num 2, .Hyphen, .Num 4, .Comma, .Num 5]).to_string =
      tokens_to_string [.Num 2, .Hyphen, .Num 4, .Comma, .Num 5] ∧
    numericValueFrom
        (tokens_to_string [.Num 2, .Hyphen, .Num 4, .Comma, .Num 5]) =
      .Tokens [.Num 2, .Hyphen, .Num 4, .Comma, .Num 5] :=
  numeric_round_trip "2 -4 , 5".toList
    [.Num 2, .Hyphen, .Num 4, .Comma, .Num 5] (by decide)

end Citeproc
